import Mathlib

/-!
Shallow embedding of the BVH spatial index from `crates/valence_layer/src/bvh.rs`
and `crates/valence_layer/src/bvh/block.rs`.

Rust `i32` coordinates are modelled as `Int`.  The one place where the source
takes explicit care about machine-integer overflow, the `middle` helper (which
widens to `i64` before averaging and casts back), is modelled twice: `middle`
is the mathematical value the source computes on in-range inputs, and
`middle_i32` makes the widening and the final `as i32` cast explicit so that
overflow-safety can be stated and proven (see `claim_middle_overflow_safe` below).
Fallible/partial behaviour (the `expect` calls, which can panic, and the
recursion of `build_rec`, which is not structurally decreasing) is made
explicit with a `BuildResult` outcome type and a fuel parameter.
-/

/-- Model of `valence_core::block_pos::BlockPos`: a block position with `i32` fields. -/
structure BlockPos where
  x : Int
  y : Int
  z : Int
deriving DecidableEq, Repr

/-- Model of `BlockAabb`: an axis-aligned bounding box over block positions. -/
structure BlockAabb where
  min : BlockPos
  max : BlockPos
deriving DecidableEq, Repr

def BlockAabb.length_x (a : BlockAabb) : Int := a.max.x - a.min.x

def BlockAabb.length_y (a : BlockAabb) : Int := a.max.y - a.min.y

def BlockAabb.length_z (a : BlockAabb) : Int := a.max.z - a.min.z

/-- Model of `Aabb::point` for `BlockAabb`: the degenerate box at a single position. -/
def BlockAabb.point (pos : BlockPos) : BlockAabb := ⟨pos, pos⟩

/-- Model of `Aabb::surface_area` for `BlockAabb`: sum of side lengths, doubled. -/
def BlockAabb.surface_area (a : BlockAabb) : Int :=
  (a.length_x + a.length_y + a.length_z) * 2

/-- Model of `Aabb::union` for `BlockAabb`: smallest AABB containing both boxes. -/
def BlockAabb.union (a b : BlockAabb) : BlockAabb :=
  ⟨⟨Min.min a.min.x b.min.x, Min.min a.min.y b.min.y, Min.min a.min.z b.min.z⟩,
   ⟨Max.max a.max.x b.max.x, Max.max a.max.y b.max.y, Max.max a.max.z b.max.z⟩⟩

/-- Model of `Aabb::intersects` for `BlockAabb`: closed-interval overlap on every axis. -/
def BlockAabb.intersects (a b : BlockAabb) : Bool :=
  decide (a.min.x ≤ b.max.x ∧ a.max.x ≥ b.min.x ∧
          a.min.y ≤ b.max.y ∧ a.max.y ≥ b.min.y ∧
          a.min.z ≤ b.max.z ∧ a.max.z ≥ b.min.z)

/-- Model of `value_bounds`: union of the point-boxes of all values, `none` when empty
(Rust: `values.iter().map(point).reduce(union)`). -/
def value_bounds {α : Type} (pos : α → BlockPos) (values : List α) : Option BlockAabb :=
  match values.map (fun v => BlockAabb.point (pos v)) with
  | [] => none
  | b :: bs => some (bs.foldl BlockAabb.union b)

/-- Model of `middle`: the exact average the source computes by widening to `i64`
(truncated toward zero, as Rust integer division does). -/
def middle (mn mx : Int) : Int := (mn + mx).tdiv 2

/-- Wrap an unbounded integer into the `i32` range, modelling Rust `as i32`. -/
def toI32 (n : Int) : Int := (n + 2 ^ 31) % 2 ^ 32 - 2 ^ 31

/-- Variant of `middle` with the `i64` widening and the final `as i32` cast explicit:
`((min as i64 + max as i64) / 2) as i32`.  The `i64` sum of two in-range `i32`
values never wraps, so only the final cast is modelled. -/
def middle_i32 (mn mx : Int) : Int := toI32 ((mn + mx).tdiv 2)

/-- The three coordinate axes. -/
inductive Axis where
  | x
  | y
  | z
deriving DecidableEq, Repr

/-- The split axis `build_rec` selects from a node's bounds: the first branch
(`length_x ≥ length_y && length_x ≥ length_z`) splits on X, the second branch
(`length_z ≥ length_y`) on Z, the final branch on Y (the inline comments in the
source name other axes, but the coordinates actually used are these). -/
def choose_axis (b : BlockAabb) : Axis :=
  if b.length_x ≥ b.length_y ∧ b.length_x ≥ b.length_z then .x
  else if b.length_z ≥ b.length_y then .z
  else .y

/-- The coordinate of a position along an axis. -/
def axis_coord (p : BlockPos) : Axis → Int
  | .x => p.x
  | .y => p.y
  | .z => p.z

/-- The side length of a box along an axis. -/
def axis_length (b : BlockAabb) : Axis → Int
  | .x => b.length_x
  | .y => b.length_y
  | .z => b.length_z

/-- The spatial midpoint of a box along an axis. -/
def axis_middle (b : BlockAabb) : Axis → Int
  | .x => middle b.min.x b.max.x
  | .y => middle b.min.y b.max.y
  | .z => middle b.min.z b.max.z

/-- The predicate `build_rec` passes to `partition`: in each branch it tests
`v.block_pos().<axis>() >= mid` for the selected axis. -/
def split_pred {α : Type} (pos : α → BlockPos) (b : BlockAabb) (v : α) : Bool :=
  if b.length_x ≥ b.length_y ∧ b.length_x ≥ b.length_z then
    decide ((pos v).x ≥ middle b.min.x b.max.x)
  else if b.length_z ≥ b.length_y then
    decide ((pos v).z ≥ middle b.min.z b.max.z)
  else
    decide ((pos v).y ≥ middle b.min.y b.max.y)

/-- One round of the two-pointer scan-and-swap loop of `partition`: skip the
maximal prefix of `pred`-true elements (counting them), find the first
`pred`-false element `x`, find the last `pred`-true element `y` after it, swap
them, and continue on the window strictly between the two.  The fuel bounds the
number of rounds; `s.length` rounds always suffice. -/
def partition_go {α : Type} (pred : α → Bool) : Nat → List α → List α × Nat
  | 0, l => (l, 0)
  | fuel + 1, l =>
    match l.dropWhile pred with
    | [] => (l, l.length)
    | x :: rest =>
      match rest.reverse.dropWhile (fun a => !pred a) with
      | [] => (l, (l.takeWhile pred).length)
      | y :: midr =>
        (l.takeWhile pred ++ y :: (partition_go pred fuel midr.reverse).1
            ++ x :: (rest.reverse.takeWhile (fun a => !pred a)).reverse,
         (l.takeWhile pred).length + 1 + (partition_go pred fuel midr.reverse).2)

/-- Model of `partition`: partitions the slice (in place in Rust; here returning the
permuted list) and returns the partition point, the number of `pred`-true
elements, which all end up at the front. -/
def partition {α : Type} (s : List α) (pred : α → Bool) : List α × Nat :=
  partition_go pred s.length s

/-- The `Node` enum: an internal split node or a leaf over a value range.
Arena indices (`NodeIdx = u32`) and the `u32` value range are modelled as
`Nat`. -/
inductive BvhNode where
  | internal (bounds : BlockAabb) (left right : Nat)
  | leaf (bounds : BlockAabb) (vlo vhi : Nat)
deriving DecidableEq, Repr

/-- Model of `Node::bounds`. -/
def BvhNode.bounds : BvhNode → BlockAabb
  | .internal b _ _ => b
  | .leaf b _ _ => b

/-- The `Bvh` container: the node arena and the value arena. -/
structure BvhState (α : Type) where
  nodes : List BvhNode
  values : List α
deriving DecidableEq, Repr

/-- Outcome of a `build_rec` call: normal completion, a panic (a failed
`expect` on an empty half), or fuel exhaustion (the call would still be
recursing after that many nested levels). -/
inductive BuildResult (α : Type) where
  | ok (st : BvhState α)
  | panic
  | fuelOut
deriving DecidableEq, Repr

/-- The contiguous sub-slice `l[lo..hi]` of a list. -/
def subslice {α : Type} (l : List α) (lo hi : Nat) : List α :=
  (l.drop lo).take (hi - lo)

/-- Replace the sub-slice `l[lo..hi]` with `mid`, keeping the rest. -/
def splice {α : Type} (l : List α) (lo hi : Nat) (mid : List α) : List α :=
  l.take lo ++ mid ++ l.drop hi

/-- Model of `Bvh::build_rec`, with a fuel parameter making the (not obviously
terminating) recursion explicit.  Mirrors the source: emit a leaf when the
bounds' surface area is at or below the threshold; otherwise partition the
value sub-slice with `split_pred`, recompute each half's bounds (panicking via
`expect` when a half is empty), recurse left then right, and push an internal
node referencing the two children. -/
def build_rec {α : Type} (pos : α → BlockPos) (maxSA : Int) :
    Nat → BlockAabb → Nat → Nat → BvhState α → BuildResult α
  | 0, _, _, _, _ => .fuelOut
  | fuel + 1, bounds, lo, hi, st =>
    if bounds.surface_area ≤ maxSA then
      .ok ⟨st.nodes ++ [.leaf bounds lo hi], st.values⟩
    else
      let res := partition (subslice st.values lo hi) (split_pred pos bounds)
      let values1 := splice st.values lo hi res.1
      match value_bounds pos (subslice values1 lo (lo + res.2)),
            value_bounds pos (subslice values1 (lo + res.2) hi) with
      | some left_bounds, some right_bounds =>
        match build_rec pos maxSA fuel left_bounds lo (lo + res.2) ⟨st.nodes, values1⟩ with
        | .ok st1 =>
          match build_rec pos maxSA fuel right_bounds (lo + res.2) hi st1 with
          | .ok st2 =>
            .ok ⟨st2.nodes ++
                  [.internal bounds (st1.nodes.length - 1) (st2.nodes.length - 1)],
                st2.values⟩
          | r => r
        | r => r
      | _, _ => .panic

/-- Model of `Bvh::build`: clear both arenas, copy the items in, and build over the
full range when the batch is non-empty. -/
def build {α : Type} (pos : α → BlockPos) (maxSA : Int) (items : List α)
    (fuel : Nat) : BuildResult α :=
  match value_bounds pos items with
  | none => .ok ⟨[], items⟩
  | some bounds => build_rec pos maxSA fuel bounds 0 items.length ⟨[], items⟩

/-- Model of `Bvh::query_rec`, by arena index, with fuel (the source recursion is
bounded by the strictly-decreasing child indices; `nodes.length` fuel always
suffices on a well-formed arena).  Returns the list of callback arguments in
invocation order, or `none` on fuel exhaustion / an out-of-bounds child index
(which would be a panic in the source). -/
def query_rec {α : Type} (pos : α → BlockPos) (nodes : List BvhNode)
    (values : List α) (view view_aabb : BlockAabb) : Nat → Nat → Option (List α)
  | 0, _ => none
  | fuel + 1, i =>
    match nodes[i]? with
    | none => none
    | some (.internal b l r) =>
      if b.intersects view_aabb then
        match query_rec pos nodes values view view_aabb fuel l,
              query_rec pos nodes values view view_aabb fuel r with
        | some xs, some ys => some (xs ++ ys)
        | _, _ => none
      else some []
    | some (.leaf b s e) =>
      if b.intersects view_aabb then
        some ((subslice values s e).filter (fun v => view.intersects (BlockAabb.point (pos v))))
      else some []

/-- Model of `Bvh::query`: start at the root (the last node) if the arena is
non-empty, otherwise do nothing. -/
def query {α : Type} (pos : α → BlockPos) (st : BvhState α) (view : BlockAabb)
    (fuel : Nat) : Option (List α) :=
  if st.nodes.isEmpty then some []
  else query_rec pos st.nodes st.values view view fuel (st.nodes.length - 1)

/-- Model of `Bvh::shrink_to_fit`, which releases excess backing capacity of the two `Vec`s;
capacity is not part of this model's state, so on the observable state it is
the identity. -/
def shrink_to_fit {α : Type} (st : BvhState α) : BvhState α := st

/-- The per-node invariant `check_invariants_rec` asserts: an internal node's
bounds equals the union of its two children's bounds, and a leaf's bounds
equals `value_bounds` of its value range (which must be non-empty and in
bounds). -/
def node_ok {α : Type} (pos : α → BlockPos) (nodes : List BvhNode)
    (values : List α) (i : Nat) : Bool :=
  match nodes[i]? with
  | none => true
  | some (.internal b l r) =>
    match nodes[l]?, nodes[r]? with
    | some nl, some nr => decide (nl.bounds.union nr.bounds = b)
    | _, _ => false
  | some (.leaf b s e) =>
    decide (value_bounds pos (subslice values s e) = some b) && decide (e ≤ values.length)

/-- Model of `Iterator::reduce` with `union`, on an already-mapped list of boxes. -/
def reduce_union : List BlockAabb → Option BlockAabb
  | [] => none
  | b :: bs => some (bs.foldl BlockAabb.union b)

def axis_min (b : BlockAabb) (ax : Axis) : Int := axis_coord b.min ax

def axis_max (b : BlockAabb) (ax : Axis) : Int := axis_coord b.max ax

/-- A well-formed subtree rooted at arena index `i`, covering the value range
`[lo, hi)` of the value arena, with bounds `b`: leaves carry `value_bounds` of
their range, internal nodes reference strictly smaller indices, split the range
in two, and carry the union of their children's bounds. -/
inductive WF {α : Type} (pos : α → BlockPos) (nodes : List BvhNode) (values : List α) :
    Nat → Nat → Nat → BlockAabb → Prop where
  | leaf : ∀ i lo hi b,
      nodes[i]? = some (.leaf b lo hi) →
      value_bounds pos (subslice values lo hi) = some b →
      hi ≤ values.length →
      WF pos nodes values i lo hi b
  | internal : ∀ i lo mid hi b bl br l r,
      nodes[i]? = some (.internal b l r) →
      l < i → r < i →
      WF pos nodes values l lo mid bl →
      WF pos nodes values r mid hi br →
      b = bl.union br →
      WF pos nodes values i lo hi b

/-- Everything a normally-completing `build_rec` call guarantees: the value
arena is only permuted inside the worked range, the node arena grows by
appending, every new internal node references earlier new nodes, every new
node roots a well-formed subtree inside the worked range, and the last new
node roots a well-formed subtree covering exactly the worked range with the
call's bounds. -/
structure BuildRecOk {α : Type} (pos : α → BlockPos) (lo hi : Nat)
    (st st' : BvhState α) (bounds : BlockAabb) : Prop where
  vlen : st'.values.length = st.values.length
  voutside : ∀ j, j < lo ∨ hi ≤ j → st'.values[j]? = st.values[j]?
  vperm : (subslice st'.values lo hi).Perm (subslice st.values lo hi)
  ngrow : st.nodes.length < st'.nodes.length
  nodes_extend : ∃ ext, st'.nodes = st.nodes ++ ext
  child_lt : ∀ j b' l r, st.nodes.length ≤ j →
    st'.nodes[j]? = some (.internal b' l r) →
    st.nodes.length ≤ l ∧ l < j ∧ st.nodes.length ≤ r ∧ r < j
  all_wf : ∀ j, st.nodes.length ≤ j → j < st'.nodes.length →
    ∃ lo' hi' b', lo ≤ lo' ∧ hi' ≤ hi ∧ WF pos st'.nodes st'.values j lo' hi' b'
  root_wf : WF pos st'.nodes st'.values (st'.nodes.length - 1) lo hi bounds


/-! ### Bounding-box algebra -/

/-- Box containment: every point of `a` lies in `b`. -/
def aabb_le (a b : BlockAabb) : Prop :=
  b.min.x ≤ a.min.x ∧ b.min.y ≤ a.min.y ∧ b.min.z ≤ a.min.z ∧
  a.max.x ≤ b.max.x ∧ a.max.y ≤ b.max.y ∧ a.max.z ≤ b.max.z

/-- Componentwise well-formedness: `min ≤ max` on every axis. -/
def aabb_wf (a : BlockAabb) : Prop :=
  a.min.x ≤ a.max.x ∧ a.min.y ≤ a.max.y ∧ a.min.z ≤ a.max.z

theorem union_assoc (a b c : BlockAabb) :
    (a.union b).union c = a.union (b.union c) := by
  simp only [BlockAabb.union, BlockAabb.mk.injEq, BlockPos.mk.injEq]
  refine ⟨⟨?_, ?_, ?_⟩, ?_, ?_, ?_⟩ <;> omega

theorem union_comm (a b : BlockAabb) : a.union b = b.union a := by
  simp only [BlockAabb.union, BlockAabb.mk.injEq, BlockPos.mk.injEq]
  refine ⟨⟨?_, ?_, ?_⟩, ?_, ?_, ?_⟩ <;> omega

theorem union_right_comm (a b c : BlockAabb) :
    (a.union b).union c = (a.union c).union b := by
  rw [union_assoc, union_comm b c, ← union_assoc]

theorem aabb_le_refl (a : BlockAabb) : aabb_le a a := by
  simp [aabb_le]

theorem aabb_le_trans {a b c : BlockAabb} (h1 : aabb_le a b) (h2 : aabb_le b c) :
    aabb_le a c := by
  simp only [aabb_le] at *
  omega

theorem aabb_le_union_left (a b : BlockAabb) : aabb_le a (a.union b) := by
  simp only [aabb_le, BlockAabb.union]
  omega

theorem aabb_le_union_right (a b : BlockAabb) : aabb_le b (a.union b) := by
  simp only [aabb_le, BlockAabb.union]
  omega

theorem aabb_wf_point (p : BlockPos) : aabb_wf (BlockAabb.point p) := by
  simp [aabb_wf, BlockAabb.point]

theorem aabb_wf_union {a b : BlockAabb} (ha : aabb_wf a) (hb : aabb_wf b) :
    aabb_wf (a.union b) := by
  simp only [aabb_wf, BlockAabb.union] at *
  omega

theorem intersects_iff (a b : BlockAabb) :
    a.intersects b = true ↔
      (a.min.x ≤ b.max.x ∧ a.max.x ≥ b.min.x ∧
       a.min.y ≤ b.max.y ∧ a.max.y ≥ b.min.y ∧
       a.min.z ≤ b.max.z ∧ a.max.z ≥ b.min.z) := by
  simp [BlockAabb.intersects]

theorem intersects_comm (a b : BlockAabb) : a.intersects b = b.intersects a := by
  simp only [BlockAabb.intersects]
  by_cases h : (a.min.x ≤ b.max.x ∧ a.max.x ≥ b.min.x ∧ a.min.y ≤ b.max.y ∧
      a.max.y ≥ b.min.y ∧ a.min.z ≤ b.max.z ∧ a.max.z ≥ b.min.z)
  · rw [decide_eq_true h, Eq.comm, decide_eq_true_iff]
    omega
  · rw [decide_eq_false h, Eq.comm, decide_eq_false_iff_not]
    omega

/-- A box containing `a` intersects everything `a` intersects. -/
theorem intersects_mono {a b v : BlockAabb} (hle : aabb_le a b)
    (h : a.intersects v = true) : b.intersects v = true := by
  rw [intersects_iff] at *
  simp only [aabb_le] at hle
  omega

/-! ### `value_bounds` lemmas -/

theorem value_bounds_eq_reduce {α : Type} (pos : α → BlockPos) (l : List α) :
    value_bounds pos l = reduce_union (l.map fun v => BlockAabb.point (pos v)) := by
  cases l <;> rfl

theorem foldl_union_cons (a b : BlockAabb) (l : List BlockAabb) :
    l.foldl BlockAabb.union (a.union b) = a.union (l.foldl BlockAabb.union b) := by
  induction l generalizing b with
  | nil => rfl
  | cons c l ih =>
    simp only [List.foldl_cons]
    rw [union_assoc]
    exact ih _

theorem foldl_union_perm {l1 l2 : List BlockAabb} (h : l1.Perm l2) (b : BlockAabb) :
    l1.foldl BlockAabb.union b = l2.foldl BlockAabb.union b := by
  induction h generalizing b with
  | nil => rfl
  | cons x _ ih => simp only [List.foldl_cons]; exact ih _
  | swap x y l =>
    simp only [List.foldl_cons]
    rw [union_right_comm]
  | trans _ _ ih1 ih2 => rw [ih1, ih2]

theorem reduce_union_perm {l1 l2 : List BlockAabb} (h : l1.Perm l2) :
    reduce_union l1 = reduce_union l2 := by
  induction h with
  | nil => rfl
  | cons x h ih =>
    simp only [reduce_union, Option.some.injEq]
    exact foldl_union_perm h x
  | swap x y l =>
    simp only [reduce_union, List.foldl_cons, Option.some.injEq]
    rw [union_comm]
  | trans h1 h2 ih1 ih2 => rw [ih1, ih2]

theorem value_bounds_perm {α : Type} (pos : α → BlockPos) {l1 l2 : List α}
    (h : l1.Perm l2) : value_bounds pos l1 = value_bounds pos l2 := by
  rw [value_bounds_eq_reduce, value_bounds_eq_reduce]
  exact reduce_union_perm (h.map _)

theorem value_bounds_eq_none_iff {α : Type} (pos : α → BlockPos) (l : List α) :
    value_bounds pos l = none ↔ l = [] := by
  cases l <;> simp [value_bounds]

theorem value_bounds_append {α : Type} (pos : α → BlockPos) {l1 l2 : List α}
    {b1 b2 : BlockAabb} (h1 : value_bounds pos l1 = some b1)
    (h2 : value_bounds pos l2 = some b2) :
    value_bounds pos (l1 ++ l2) = some (b1.union b2) := by
  match l1, l2 with
  | [], _ => simp [value_bounds] at h1
  | _ :: _, [] => simp [value_bounds] at h2
  | v :: vs, w :: ws =>
    simp only [value_bounds, List.map_cons, List.map_append, List.foldl_cons,
      Option.some.injEq, List.cons_append, List.foldl_append] at h1 h2 ⊢
    rw [h1, ← h2, foldl_union_cons]

theorem foldl_union_le {c b : BlockAabb} (l : List BlockAabb) (h : aabb_le c b) :
    aabb_le c (l.foldl BlockAabb.union b) := by
  induction l generalizing b with
  | nil => exact h
  | cons x l ih =>
    exact ih (aabb_le_trans h (aabb_le_union_left b x))

theorem mem_foldl_union_le {c b : BlockAabb} {l : List BlockAabb} (h : c ∈ l) :
    aabb_le c (l.foldl BlockAabb.union b) := by
  induction l generalizing b with
  | nil => cases h
  | cons x l ih =>
    rcases List.mem_cons.1 h with rfl | h
    · exact foldl_union_le l (aabb_le_union_right b c)
    · exact ih h

/-- Every value's point-box is contained in the bounds `value_bounds` returns. -/
theorem value_bounds_le {α : Type} (pos : α → BlockPos) {l : List α} {b : BlockAabb}
    (hb : value_bounds pos l = some b) {v : α} (hv : v ∈ l) :
    aabb_le (BlockAabb.point (pos v)) b := by
  match l with
  | [] => cases hv
  | w :: ws =>
    simp only [value_bounds, List.map_cons, Option.some.injEq] at hb
    subst hb
    rcases List.mem_cons.1 hv with rfl | hv
    · exact foldl_union_le _ (aabb_le_refl _)
    · exact mem_foldl_union_le (List.mem_map_of_mem _ hv)

theorem foldl_union_wf {b : BlockAabb} (l : List BlockAabb) (hwf : aabb_wf b)
    (h : ∀ c ∈ l, aabb_wf c) : aabb_wf (l.foldl BlockAabb.union b) := by
  induction l generalizing b with
  | nil => exact hwf
  | cons x l ih =>
    exact ih (aabb_wf_union hwf (h x (List.mem_cons_self x l)))
      (fun c hc => h c (List.mem_cons_of_mem x hc))

/-- The function `value_bounds` returns a well-formed box (`min ≤ max` on every axis). -/
theorem value_bounds_wf {α : Type} (pos : α → BlockPos) {l : List α} {b : BlockAabb}
    (hb : value_bounds pos l = some b) : aabb_wf b := by
  match l with
  | [] => cases hb
  | w :: ws =>
    simp only [value_bounds, List.map_cons, Option.some.injEq] at hb
    subst hb
    exact foldl_union_wf _ (aabb_wf_point _)
      (by intro c hc; rcases List.mem_map.1 hc with ⟨v, _, rfl⟩; exact aabb_wf_point _)

/-! ### Axis projections -/

theorem axis_min_union (a b : BlockAabb) (ax : Axis) :
    axis_min (a.union b) ax = Min.min (axis_min a ax) (axis_min b ax) := by
  cases ax <;> rfl

theorem axis_max_union (a b : BlockAabb) (ax : Axis) :
    axis_max (a.union b) ax = Max.max (axis_max a ax) (axis_max b ax) := by
  cases ax <;> rfl

theorem axis_length_eq (b : BlockAabb) (ax : Axis) :
    axis_length b ax = axis_max b ax - axis_min b ax := by
  cases ax <;> rfl

theorem axis_min_point (p : BlockPos) (ax : Axis) :
    axis_min (BlockAabb.point p) ax = axis_coord p ax := by
  cases ax <;> rfl

theorem axis_max_point (p : BlockPos) (ax : Axis) :
    axis_max (BlockAabb.point p) ax = axis_coord p ax := by
  cases ax <;> rfl

theorem aabb_le_axis {a b : BlockAabb} (h : aabb_le a b) (ax : Axis) :
    axis_min b ax ≤ axis_min a ax ∧ axis_max a ax ≤ axis_max b ax := by
  obtain ⟨h1, h2, h3, h4, h5, h6⟩ := h
  cases ax <;> exact ⟨by assumption, by assumption⟩

theorem aabb_wf_axis {a : BlockAabb} (h : aabb_wf a) (ax : Axis) :
    axis_min a ax ≤ axis_max a ax := by
  obtain ⟨h1, h2, h3⟩ := h
  cases ax <;> assumption

theorem surface_area_axes (b : BlockAabb) :
    b.surface_area = (axis_length b .x + axis_length b .y + axis_length b .z) * 2 := rfl

theorem foldl_union_axis_min_ge {c : Int} {ax : Axis} {b : BlockAabb}
    (l : List BlockAabb) (hb : c ≤ axis_min b ax) (h : ∀ d ∈ l, c ≤ axis_min d ax) :
    c ≤ axis_min (l.foldl BlockAabb.union b) ax := by
  induction l generalizing b with
  | nil => exact hb
  | cons x l ih =>
    refine ih ?_ (fun d hd => h d (List.mem_cons_of_mem x hd))
    rw [axis_min_union]
    exact le_min hb (h x (List.mem_cons_self x l))

theorem foldl_union_axis_max_le {c : Int} {ax : Axis} {b : BlockAabb}
    (l : List BlockAabb) (hb : axis_max b ax ≤ c) (h : ∀ d ∈ l, axis_max d ax ≤ c) :
    axis_max (l.foldl BlockAabb.union b) ax ≤ c := by
  induction l generalizing b with
  | nil => exact hb
  | cons x l ih =>
    refine ih ?_ (fun d hd => h d (List.mem_cons_of_mem x hd))
    rw [axis_max_union]
    exact max_le hb (h x (List.mem_cons_self x l))

/-- If every value's coordinate along `ax` is at least `c`, so is the
minimum of `value_bounds` along `ax`. -/
theorem value_bounds_axis_min_ge {α : Type} (pos : α → BlockPos) {l : List α}
    {b : BlockAabb} {c : Int} {ax : Axis} (hb : value_bounds pos l = some b)
    (h : ∀ v ∈ l, c ≤ axis_coord (pos v) ax) : c ≤ axis_min b ax := by
  match l with
  | [] => cases hb
  | w :: ws =>
    simp only [value_bounds, List.map_cons, Option.some.injEq] at hb
    subst hb
    refine foldl_union_axis_min_ge _ ?_ ?_
    · rw [axis_min_point]; exact h w (List.mem_cons_self w ws)
    · intro d hd
      rcases List.mem_map.1 hd with ⟨v, hv, rfl⟩
      rw [axis_min_point]
      exact h v (List.mem_cons_of_mem w hv)

/-- If every value's coordinate along `ax` is at most `c`, so is the
maximum of `value_bounds` along `ax`. -/
theorem value_bounds_axis_max_le {α : Type} (pos : α → BlockPos) {l : List α}
    {b : BlockAabb} {c : Int} {ax : Axis} (hb : value_bounds pos l = some b)
    (h : ∀ v ∈ l, axis_coord (pos v) ax ≤ c) : axis_max b ax ≤ c := by
  match l with
  | [] => cases hb
  | w :: ws =>
    simp only [value_bounds, List.map_cons, Option.some.injEq] at hb
    subst hb
    refine foldl_union_axis_max_le _ ?_ ?_
    · rw [axis_max_point]; exact h w (List.mem_cons_self w ws)
    · intro d hd
      rcases List.mem_map.1 hd with ⟨v, hv, rfl⟩
      rw [axis_max_point]
      exact h v (List.mem_cons_of_mem w hv)

/-! ### Slice and splice lemmas -/

theorem subslice_full {α : Type} (l : List α) : subslice l 0 l.length = l := by
  simp [subslice]

theorem length_subslice {α : Type} (l : List α) {lo hi : Nat} (h1 : lo ≤ hi)
    (h2 : hi ≤ l.length) : (subslice l lo hi).length = hi - lo := by
  simp only [subslice, List.length_take, List.length_drop]
  omega

theorem getElem?_subslice {α : Type} (l : List α) (lo hi k : Nat) :
    (subslice l lo hi)[k]? = if k < hi - lo then l[lo + k]? else none := by
  simp only [subslice, List.getElem?_take, List.getElem?_drop]

theorem subslice_append_subslice {α : Type} (l : List α) {lo mid hi : Nat}
    (h1 : lo ≤ mid) (h2 : mid ≤ hi) :
    subslice l lo hi = subslice l lo mid ++ subslice l mid hi := by
  simp only [subslice]
  rw [show hi - lo = (mid - lo) + (hi - mid) from by omega, List.take_add,
    List.drop_drop, show lo + (mid - lo) = mid from by omega]

theorem subslice_eq_of_agree {α : Type} {l l' : List α} {lo hi : Nat}
    (h : ∀ j, lo ≤ j → j < hi → l'[j]? = l[j]?) :
    subslice l' lo hi = subslice l lo hi := by
  apply List.ext_getElem?
  intro k
  rw [getElem?_subslice, getElem?_subslice]
  split
  · rename_i hk
    exact h (lo + k) (Nat.le_add_right _ _) (by omega)
  · rfl

theorem length_splice {α : Type} (l m : List α) {lo hi : Nat} (h1 : lo ≤ hi)
    (h2 : hi ≤ l.length) (hm : m.length = hi - lo) :
    (splice l lo hi m).length = l.length := by
  simp only [splice, List.length_append, List.length_take, List.length_drop]
  omega

theorem getElem?_splice_outside {α : Type} (l m : List α) {lo hi : Nat} (j : Nat)
    (h1 : lo ≤ hi) (h2 : hi ≤ l.length) (hm : m.length = hi - lo)
    (hj : j < lo ∨ hi ≤ j) : (splice l lo hi m)[j]? = l[j]? := by
  simp only [splice]
  rcases hj with hj | hj
  · rw [List.getElem?_append_left
      (by simp only [List.length_append, List.length_take]; omega)]
    rw [List.getElem?_append_left (by simp only [List.length_take]; omega)]
    rw [List.getElem?_take]
    simp [show j < lo from hj]
  · rw [List.getElem?_append_right
      (by simp only [List.length_append, List.length_take]; omega)]
    rw [List.getElem?_drop]
    congr 1
    simp only [List.length_append, List.length_take]
    omega

theorem subslice_splice {α : Type} (l m : List α) {lo hi : Nat} (h1 : lo ≤ hi)
    (h2 : hi ≤ l.length) (hm : m.length = hi - lo) :
    subslice (splice l lo hi m) lo hi = m := by
  apply List.ext_getElem?
  intro k
  rw [getElem?_subslice]
  split
  · rename_i hk
    simp only [splice, List.append_assoc]
    rw [List.getElem?_append_right (by simp only [List.length_take]; omega)]
    rw [List.getElem?_append_left (by simp only [List.length_take]; omega)]
    congr 1
    simp only [List.length_take]
    omega
  · rename_i hk
    exact (List.getElem?_eq_none (by omega)).symm

/-! ### Partition specification -/

/-- Decomposition of the window in the swap case of a `partition_go` round:
the original list is the true-prefix, then the first false element, then the
middle window, then the last true element, then the false suffix. -/
theorem partition_round_decomp {α : Type} (pred : α → Bool) {l rest : List α}
    {x y : α} {midr : List α} (hdrop : l.dropWhile pred = x :: rest)
    (hdrop2 : rest.reverse.dropWhile (fun a => !pred a) = y :: midr) :
    l = l.takeWhile pred ++ x :: (midr.reverse ++ y ::
      (rest.reverse.takeWhile (fun a => !pred a)).reverse) ∧
    pred x = false ∧ pred y = true ∧
    (∀ v ∈ (rest.reverse.takeWhile (fun a => !pred a)).reverse, pred v = false) := by
  have hx : pred x = false := by
    have hw : l.dropWhile pred ≠ [] := by rw [hdrop]; exact List.cons_ne_nil _ _
    have := List.head_dropWhile_not pred l hw
    rwa [show (l.dropWhile pred).head hw = x from by simp [hdrop]] at this
  have hy : pred y = true := by
    have hw : rest.reverse.dropWhile (fun a => !pred a) ≠ [] := by
      rw [hdrop2]; exact List.cons_ne_nil _ _
    have := List.head_dropWhile_not (fun a => !pred a) rest.reverse hw
    rw [show (rest.reverse.dropWhile fun a => !pred a).head hw = y from by
      simp [hdrop2]] at this
    simpa using this
  have hsuf : ∀ v ∈ (rest.reverse.takeWhile (fun a => !pred a)).reverse,
      pred v = false := by
    intro v hv
    rw [List.mem_reverse] at hv
    have := List.mem_takeWhile_imp hv
    simpa using this
  have hrest : rest = midr.reverse ++ y ::
      (rest.reverse.takeWhile (fun a => !pred a)).reverse := by
    have h1 : rest.reverse.takeWhile (fun a => !pred a) ++ y :: midr = rest.reverse := by
      rw [← hdrop2]; exact List.takeWhile_append_dropWhile _ _
    have h2 : rest.reverse.reverse =
        (rest.reverse.takeWhile (fun a => !pred a) ++ y :: midr).reverse := by
      rw [h1]
    rw [List.reverse_reverse, List.reverse_append, List.reverse_cons,
      List.append_assoc] at h2
    simpa using h2
  refine ⟨?_, hx, hy, hsuf⟩
  conv_lhs => rw [← List.takeWhile_append_dropWhile pred l, hdrop]
  rw [← hrest]

theorem partition_go_spec {α : Type} (pred : α → Bool) :
    ∀ (fuel : Nat) (l : List α), l.length ≤ fuel →
      (partition_go pred fuel l).1.Perm l ∧
      (partition_go pred fuel l).2 = l.countP pred ∧
      (∀ v ∈ (partition_go pred fuel l).1.take (partition_go pred fuel l).2,
        pred v = true) ∧
      (∀ v ∈ (partition_go pred fuel l).1.drop (partition_go pred fuel l).2,
        pred v = false) := by
  intro fuel
  induction fuel with
  | zero =>
    intro l hl
    have hln : l = [] := List.length_eq_zero.1 (Nat.le_zero.1 hl)
    subst hln
    refine ⟨List.Perm.refl _, rfl, ?_, ?_⟩ <;>
      (intro v hv; simp only [partition_go, List.take_nil, List.drop_nil] at hv) <;>
      cases hv
  | succ fuel ih =>
    intro l hl
    rcases hdrop : l.dropWhile pred with _ | ⟨x, rest⟩
    · -- all elements satisfy the predicate: no swap happens
      have hall : ∀ v ∈ l, pred v = true := by
        rw [← List.dropWhile_eq_nil_iff]
        exact hdrop
      simp only [partition_go, hdrop]
      refine ⟨List.Perm.refl _, (List.countP_eq_length.2 hall).symm, ?_, ?_⟩
      · intro v hv
        exact hall v (List.mem_of_mem_take hv)
      · intro v hv
        rw [List.drop_length] at hv
        cases hv
    · rcases hdrop2 : rest.reverse.dropWhile (fun a => !pred a) with _ | ⟨y, midr⟩
      · -- everything after the first false element is false: loop breaks
        have hx : pred x = false := by
          have hw : l.dropWhile pred ≠ [] := by rw [hdrop]; exact List.cons_ne_nil _ _
          have := List.head_dropWhile_not pred l hw
          rwa [show (l.dropWhile pred).head hw = x from by simp [hdrop]] at this
        have hrest : ∀ v ∈ rest, pred v = false := by
          intro v hv
          have hall : ∀ w ∈ rest.reverse, (fun a => !pred a) w = true := by
            rw [← List.dropWhile_eq_nil_iff]
            exact hdrop2
          have := hall v (List.mem_reverse.2 hv)
          simpa using this
        have hpre : ∀ v ∈ l.takeWhile pred, pred v = true :=
          fun v hv => List.mem_takeWhile_imp hv
        simp only [partition_go, hdrop, hdrop2]
        set pre := l.takeWhile pred with hpre_def
        have hl2 : l = pre ++ x :: rest := by
          conv_lhs => rw [← List.takeWhile_append_dropWhile pred l, hdrop]
        refine ⟨List.Perm.refl _, ?_, ?_, ?_⟩
        · conv_rhs => rw [hl2]
          have h1 : List.countP pred pre = pre.length := List.countP_eq_length.2 hpre
          have h2 : List.countP pred rest = 0 :=
            List.countP_eq_zero.2 (by intro a ha; simp [hrest a ha])
          rw [List.countP_append, List.countP_cons, h1, h2]
          simp [hx]
        · intro v hv
          conv at hv => rw [hl2]
          rw [List.take_left' rfl] at hv
          exact hpre v hv
        · intro v hv
          conv at hv => rw [hl2]
          rw [List.drop_left' rfl] at hv
          rcases List.mem_cons.1 hv with rfl | hv
          · exact hx
          · exact hrest v hv
      · -- swap case
        obtain ⟨hl2, hx, hy, hsuf⟩ := partition_round_decomp pred hdrop hdrop2
        have hpre : ∀ v ∈ l.takeWhile pred, pred v = true :=
          fun v hv => List.mem_takeWhile_imp hv
        simp only [partition_go, hdrop, hdrop2]
        set pre := l.takeWhile pred with hpre_def
        set suf := (rest.reverse.takeWhile (fun a => !pred a)).reverse with hsuf_def
        have hlen := congrArg List.length hl2
        simp only [List.length_append, List.length_cons, List.length_reverse] at hlen
        have hmidlen : midr.reverse.length ≤ fuel := by
          simp only [List.length_reverse]
          omega
        obtain ⟨ihperm, ihcount, ihfront, ihback⟩ := ih midr.reverse hmidlen
        set P := (partition_go pred fuel midr.reverse).1 with hP_def
        set c := (partition_go pred fuel midr.reverse).2 with hc_def
        have hPlen : P.length = midr.reverse.length := ihperm.length_eq
        have hcle : c ≤ P.length := by
          rw [hPlen, ihcount]
          exact List.countP_le_length _
        have hsplit : pre ++ y :: P ++ x :: suf =
            (pre ++ y :: P.take c) ++ (P.drop c ++ x :: suf) := by
          conv_lhs => rw [← List.take_append_drop c P]
          simp only [List.cons_append, List.append_assoc]
        have hsplitlen : (pre ++ y :: P.take c).length = pre.length + 1 + c := by
          simp only [List.length_append, List.length_cons, List.length_take]
          omega
        refine ⟨?_, ?_, ?_, ?_⟩
        · -- permutation with the original window
          conv_rhs => rw [hl2]
          simp only [List.append_assoc, List.cons_append]
          apply List.Perm.append_left
          refine List.Perm.trans (List.Perm.cons y List.perm_middle) ?_
          refine List.Perm.trans (List.Perm.swap x y _) ?_
          refine List.Perm.trans
            (List.Perm.cons x (List.Perm.cons y (ihperm.append_right _))) ?_
          exact List.Perm.cons x List.perm_middle.symm
        · -- the returned partition point counts the true elements
          have h1 : List.countP pred pre = pre.length := List.countP_eq_length.2 hpre
          have h2 : List.countP pred suf = 0 :=
            List.countP_eq_zero.2 (by intro a ha; simp [hsuf a ha])
          conv_rhs => rw [hl2]
          rw [List.countP_append, List.countP_cons, List.countP_append,
            List.countP_cons, h1, h2, ihcount]
          simp [hx, hy, List.countP_reverse]
          omega
        · -- everything before the partition point satisfies the predicate
          intro v hv
          rw [hsplit, List.take_left' hsplitlen] at hv
          rcases List.mem_append.1 hv with hv | hv
          · exact hpre v hv
          · rcases List.mem_cons.1 hv with rfl | hv
            · exact hy
            · exact ihfront v hv
        · -- everything from the partition point on falsifies the predicate
          intro v hv
          rw [hsplit, List.drop_left' hsplitlen] at hv
          rcases List.mem_append.1 hv with hv | hv
          · exact ihback v hv
          · rcases List.mem_cons.1 hv with rfl | hv2
            · exact hx
            · exact hsuf v hv2

/-- The partition permutes the slice. -/
theorem partition_perm {α : Type} (s : List α) (pred : α → Bool) :
    (partition s pred).1.Perm s :=
  (partition_go_spec pred s.length s le_rfl).1

/-- The partition point is the number of `pred`-true elements. -/
theorem partition_count {α : Type} (s : List α) (pred : α → Bool) :
    (partition s pred).2 = s.countP pred :=
  (partition_go_spec pred s.length s le_rfl).2.1

/-- Every element in front of the partition point satisfies the predicate. -/
theorem partition_front {α : Type} (s : List α) (pred : α → Bool) :
    ∀ v ∈ (partition s pred).1.take (partition s pred).2, pred v = true :=
  (partition_go_spec pred s.length s le_rfl).2.2.1

/-- Every element at or after the partition point falsifies the predicate. -/
theorem partition_back {α : Type} (s : List α) (pred : α → Bool) :
    ∀ v ∈ (partition s pred).1.drop (partition s pred).2, pred v = false :=
  (partition_go_spec pred s.length s le_rfl).2.2.2

theorem partition_length {α : Type} (s : List α) (pred : α → Bool) :
    (partition s pred).1.length = s.length :=
  (partition_perm s pred).length_eq

theorem partition_point_le {α : Type} (s : List α) (pred : α → Bool) :
    (partition s pred).2 ≤ s.length := by
  rw [partition_count]
  exact List.countP_le_length _

/-! ### Well-formed subtrees of the arena -/

theorem lt_length_of_getElem?_some {α : Type} {l : List α} {i : Nat} {a : α}
    (h : l[i]? = some a) : i < l.length := by
  by_contra hc
  rw [List.getElem?_eq_none (by omega)] at h
  cases h

theorem WF.lt_length {α : Type} {pos : α → BlockPos} {nodes : List BvhNode}
    {values : List α} {i lo hi : Nat} {b : BlockAabb}
    (h : WF pos nodes values i lo hi b) : i < nodes.length := by
  cases h with
  | leaf i lo hi b hn _ _ => exact lt_length_of_getElem?_some hn
  | internal i lo mid hi b bl br l r hn _ _ _ _ _ => exact lt_length_of_getElem?_some hn

theorem WF.bounds_at {α : Type} {pos : α → BlockPos} {nodes : List BvhNode}
    {values : List α} {i lo hi : Nat} {b : BlockAabb}
    (h : WF pos nodes values i lo hi b) :
    ∃ nd, nodes[i]? = some nd ∧ nd.bounds = b := by
  cases h with
  | leaf i lo hi b hn _ _ => exact ⟨_, hn, rfl⟩
  | internal i lo mid hi b bl br l r hn _ _ _ _ hb => exact ⟨_, hn, rfl⟩

/-- A well-formed subtree covers a non-empty, in-bounds range whose
`value_bounds` is exactly the subtree's bounds. -/
theorem WF.range {α : Type} {pos : α → BlockPos} {nodes : List BvhNode}
    {values : List α} {i lo hi : Nat} {b : BlockAabb}
    (h : WF pos nodes values i lo hi b) :
    lo < hi ∧ hi ≤ values.length ∧
      value_bounds pos (subslice values lo hi) = some b := by
  induction h with
  | leaf i lo hi b hn hvb hle =>
    refine ⟨?_, hle, hvb⟩
    by_contra hc
    have hnil : subslice values lo hi = [] := by
      simp only [subslice]
      rw [show hi - lo = 0 from by omega]
      exact List.take_zero _
    rw [hnil] at hvb
    cases hvb
  | internal i lo mid hi b bl br l r hn hl hr hwl hwr hb ihl ihr =>
    obtain ⟨h1, h2, h3⟩ := ihl
    obtain ⟨h4, h5, h6⟩ := ihr
    refine ⟨by omega, h5, ?_⟩
    rw [subslice_append_subslice values (le_of_lt h1) (le_of_lt h4),
      value_bounds_append pos h3 h6, hb]

/-- Extending the node arena to the right preserves well-formedness. -/
theorem WF.mono_nodes {α : Type} {pos : α → BlockPos} {nodes ext : List BvhNode}
    {values : List α} {i lo hi : Nat} {b : BlockAabb}
    (h : WF pos nodes values i lo hi b) :
    WF pos (nodes ++ ext) values i lo hi b := by
  induction h with
  | leaf i lo hi b hn hvb hle =>
    exact WF.leaf i lo hi b
      (by rw [List.getElem?_append_left (lt_length_of_getElem?_some hn)]; exact hn)
      hvb hle
  | internal i lo mid hi b bl br l r hn hl hr hwl hwr hb ihl ihr =>
    exact WF.internal i lo mid hi b bl br l r
      (by rw [List.getElem?_append_left (lt_length_of_getElem?_some hn)]; exact hn)
      hl hr ihl ihr hb

/-- Changing values only outside the covered range preserves well-formedness. -/
theorem WF.ext_values {α : Type} {pos : α → BlockPos} {nodes : List BvhNode}
    {values : List α} {i lo hi : Nat} {b : BlockAabb}
    (h : WF pos nodes values i lo hi b) :
    ∀ values' : List α, (∀ j, lo ≤ j → j < hi → values'[j]? = values[j]?) →
      values'.length = values.length →
      WF pos nodes values' i lo hi b := by
  induction h with
  | leaf i lo hi b hn hvb hle =>
    intro values' hagree hlen
    refine WF.leaf i lo hi b hn ?_ (by omega)
    rw [subslice_eq_of_agree hagree]
    exact hvb
  | internal i lo mid hi b bl br l r hn hl hr hwl hwr hb ihl ihr =>
    intro values' hagree hlen
    obtain ⟨hlm, hm2, hm3⟩ := hwl.range
    obtain ⟨hmh, hh2, hh3⟩ := hwr.range
    refine WF.internal i lo mid hi b bl br l r hn hl hr ?_ ?_ hb
    · exact ihl values' (fun j hj1 hj2 => hagree j hj1 (by omega)) hlen
    · exact ihr values' (fun j hj1 hj2 => hagree j (by omega) hj2) hlen

/-- A well-formed node passes the per-node invariant check. -/
theorem wf_node_ok {α : Type} {pos : α → BlockPos} {nodes : List BvhNode}
    {values : List α} {i lo hi : Nat} {b : BlockAabb}
    (h : WF pos nodes values i lo hi b) : node_ok pos nodes values i = true := by
  cases h with
  | leaf i lo hi b hn hvb hle =>
    simp only [node_ok, hn]
    simp [hvb, hle]
  | internal i lo mid hi b bl br l r hn hl hr hwl hwr hb =>
    obtain ⟨nl, hnl, hbl⟩ := hwl.bounds_at
    obtain ⟨nr, hnr, hbr⟩ := hwr.bounds_at
    simp only [node_ok, hn, hnl, hnr]
    simp [hbl, hbr, hb]

/-! ### Query correctness over a well-formed subtree -/

/-- Over a well-formed subtree, `query_rec` succeeds (given fuel exceeding the
root index) and returns exactly the filter of the covered value range by the
per-item intersection test, in order. -/
theorem query_rec_correct {α : Type} {pos : α → BlockPos} {nodes : List BvhNode}
    {values : List α} {i lo hi : Nat} {b : BlockAabb}
    (h : WF pos nodes values i lo hi b) :
    ∀ fuel, i < fuel → ∀ view : BlockAabb,
      query_rec pos nodes values view view fuel i =
        some ((subslice values lo hi).filter
          (fun v => view.intersects (BlockAabb.point (pos v)))) := by
  induction h with
  | leaf i lo hi b hn hvb hle =>
    intro fuel hfuel view
    match fuel, hfuel with
    | fuel + 1, _ =>
      simp only [query_rec, hn]
      by_cases hint : b.intersects view = true
      · rw [if_pos hint]
      · rw [if_neg hint]
        congr 1
        rw [Eq.comm, List.filter_eq_nil_iff]
        intro v hv hpv
        apply hint
        rw [intersects_comm] at hpv
        exact intersects_mono (value_bounds_le pos hvb hv) hpv
  | internal i lo mid hi b bl br l r hn hl hr hwl hwr hb ihl ihr =>
    intro fuel hfuel view
    match fuel, hfuel with
    | fuel + 1, _ =>
      obtain ⟨hlm, hmlen, hvbl⟩ := hwl.range
      obtain ⟨hmh, hhlen, hvbr⟩ := hwr.range
      simp only [query_rec, hn]
      by_cases hint : b.intersects view = true
      · rw [if_pos hint, ihl fuel (by omega) view, ihr fuel (by omega) view]
        rw [subslice_append_subslice values (le_of_lt hlm) (le_of_lt hmh),
          List.filter_append]
      · rw [if_neg hint]
        congr 1
        have hvb : value_bounds pos (subslice values lo hi) = some b := by
          rw [subslice_append_subslice values (le_of_lt hlm) (le_of_lt hmh),
            value_bounds_append pos hvbl hvbr, hb]
        rw [Eq.comm, List.filter_eq_nil_iff]
        intro v hv hpv
        apply hint
        rw [intersects_comm] at hpv
        exact intersects_mono (value_bounds_le pos hvb hv) hpv

/-! ### The master specification of `build_rec` -/

theorem eq_take_drop_of_append_eq {α : Type} {A B m : List α} (h : A ++ B = m) :
    A = m.take A.length ∧ B = m.drop A.length := by
  subst h
  exact ⟨(List.take_left A B).symm, (List.drop_left A B).symm⟩

theorem build_rec_spec {α : Type} (pos : α → BlockPos) (maxSA : Int) :
    ∀ (fuel : Nat) (bounds : BlockAabb) (lo hi : Nat) (st st' : BvhState α),
      lo ≤ hi → hi ≤ st.values.length →
      value_bounds pos (subslice st.values lo hi) = some bounds →
      build_rec pos maxSA fuel bounds lo hi st = .ok st' →
      BuildRecOk pos lo hi st st' bounds := by
  intro fuel
  induction fuel with
  | zero =>
    intro bounds lo hi st st' _ _ _ h
    simp only [build_rec] at h
    cases h
  | succ fuel ih =>
    intro bounds lo hi st st' hlohi hhile hvb h
    simp only [build_rec] at h
    by_cases hsa : bounds.surface_area ≤ maxSA
    · -- leaf case
      rw [if_pos hsa] at h
      injection h with h2
      subst h2
      have hroot : ∀ ext2 : List BvhNode,
          (st.nodes ++ [BvhNode.leaf bounds lo hi])[st.nodes.length]? =
            some (.leaf bounds lo hi) := by
        intro _
        rw [List.getElem?_append_right le_rfl]
        simp
      have hwf : WF pos (st.nodes ++ [BvhNode.leaf bounds lo hi]) st.values
          st.nodes.length lo hi bounds :=
        WF.leaf _ _ _ _ (hroot []) hvb hhile
      refine ⟨rfl, fun j hj => rfl, List.Perm.refl _, by simp,
        ⟨[BvhNode.leaf bounds lo hi], rfl⟩, ?_, ?_, ?_⟩
      · intro j b' l r hj hget
        exfalso
        rw [List.getElem?_append_right hj] at hget
        rcases hjk : j - st.nodes.length with _ | k
        · rw [hjk] at hget
          simp at hget
        · rw [hjk] at hget
          simp at hget
      · intro j hj1 hj2
        have hj3 : j = st.nodes.length := by
          simp only [List.length_append, List.length_cons, List.length_nil] at hj2
          omega
        subst hj3
        exact ⟨lo, hi, bounds, le_rfl, le_rfl, hwf⟩
      · have hlen2 : (st.nodes ++ [BvhNode.leaf bounds lo hi]).length - 1 =
            st.nodes.length := by simp
        rw [hlen2]
        exact hwf
    · -- split case
      rw [if_neg hsa] at h
      set s0 := subslice st.values lo hi with hs0
      set pr := split_pred pos bounds with hpr
      set qq := partition s0 pr with hqq
      set vals1 := splice st.values lo hi qq.1 with hvals1
      have hperm0 : qq.1.Perm s0 := by rw [hqq]; exact partition_perm s0 pr
      have hs0len : s0.length = hi - lo := by
        rw [hs0]; exact length_subslice st.values hlohi hhile
      have hq1len : qq.1.length = hi - lo := by
        rw [hqq, partition_length s0 pr, hs0len]
      have hple : qq.2 ≤ hi - lo := by
        have := partition_point_le s0 pr
        rw [← hqq] at this
        omega
      have hv1len : vals1.length = st.values.length := by
        rw [hvals1]; exact length_splice st.values qq.1 hlohi hhile hq1len
      have hsub1 : subslice vals1 lo hi = qq.1 := by
        rw [hvals1]; exact subslice_splice st.values qq.1 hlohi hhile hq1len
      have hlosum : lo ≤ lo + qq.2 := Nat.le_add_right _ _
      have hsumhi : lo + qq.2 ≤ hi := by omega
      have hsplitA : subslice vals1 lo (lo + qq.2) ++
          subslice vals1 (lo + qq.2) hi = qq.1 := by
        rw [← subslice_append_subslice vals1 hlosum hsumhi, hsub1]
      have hAlen : (subslice vals1 lo (lo + qq.2)).length = qq.2 := by
        rw [length_subslice vals1 hlosum (by omega)]
        omega
      have htake : subslice vals1 lo (lo + qq.2) = qq.1.take qq.2 := by
        have := (eq_take_drop_of_append_eq hsplitA).1
        rwa [hAlen] at this
      have hdrop : subslice vals1 (lo + qq.2) hi = qq.1.drop qq.2 := by
        have := (eq_take_drop_of_append_eq hsplitA).2
        rwa [hAlen] at this
      rcases hL : value_bounds pos (subslice vals1 lo (lo + qq.2)) with _ | lb
      · rw [hL] at h
        exact absurd h (by simp)
      rcases hR : value_bounds pos (subslice vals1 (lo + qq.2) hi) with _ | rb
      · rw [hL, hR] at h
        exact absurd h (by simp)
      rw [hL, hR] at h
      dsimp only at h
      rcases hB1 : build_rec pos maxSA fuel lb lo (lo + qq.2) ⟨st.nodes, vals1⟩
        with st1 | _ | _
      rotate_left
      · rw [hB1] at h; exact absurd h (by simp)
      · rw [hB1] at h; exact absurd h (by simp)
      rw [hB1] at h
      dsimp only at h
      rcases hB2 : build_rec pos maxSA fuel rb (lo + qq.2) hi st1 with st2 | _ | _
      rotate_left
      · rw [hB2] at h; exact absurd h (by simp)
      · rw [hB2] at h; exact absurd h (by simp)
      rw [hB2] at h
      dsimp only at h
      injection h with h2
      subst h2
      -- the two recursive calls satisfy the specification
      have ok1 : BuildRecOk pos lo (lo + qq.2) ⟨st.nodes, vals1⟩ st1 lb :=
        ih lb lo (lo + qq.2) ⟨st.nodes, vals1⟩ st1 hlosum
          (show lo + qq.2 ≤ vals1.length from by omega) hL hB1
      have h1vlen : st1.values.length = vals1.length := ok1.vlen
      have h1out : ∀ j, j < lo ∨ lo + qq.2 ≤ j → st1.values[j]? = vals1[j]? :=
        ok1.voutside
      have hvbR : value_bounds pos (subslice st1.values (lo + qq.2) hi) = some rb := by
        rw [subslice_eq_of_agree (fun j hj1 hj2 => h1out j (Or.inr hj1))]
        exact hR
      have ok2 : BuildRecOk pos (lo + qq.2) hi st1 st2 rb :=
        ih rb (lo + qq.2) hi st1 st2 hsumhi (by omega) hvbR hB2
      have h2vlen : st2.values.length = st1.values.length := ok2.vlen
      have h2out : ∀ j, j < lo + qq.2 ∨ hi ≤ j → st2.values[j]? = st1.values[j]? :=
        ok2.voutside
      have h1grow : st.nodes.length < st1.nodes.length := ok1.ngrow
      have h2grow : st1.nodes.length < st2.nodes.length := ok2.ngrow
      obtain ⟨ext1, hext1⟩ : ∃ ext, st1.nodes = st.nodes ++ ext := ok1.nodes_extend
      obtain ⟨ext2, hext2⟩ := ok2.nodes_extend
      -- the parent bounds is the union of the two recomputed child bounds
      have hbeq : bounds = lb.union rb := by
        have h3 : value_bounds pos (qq.1.take qq.2) = some lb := by rw [← htake]; exact hL
        have h4 : value_bounds pos (qq.1.drop qq.2) = some rb := by rw [← hdrop]; exact hR
        have h5 := value_bounds_append pos h3 h4
        rw [List.take_append_drop] at h5
        have h6 := value_bounds_perm pos hperm0
        rw [h5, hvb] at h6
        exact (Option.some.inj h6).symm
      -- lifting left-subtree well-formedness to the final arenas
      have hliftL : ∀ i lo' hi' b', lo ≤ lo' → hi' ≤ lo + qq.2 →
          WF pos st1.nodes st1.values i lo' hi' b' →
          WF pos (st2.nodes ++ [BvhNode.internal bounds (st1.nodes.length - 1)
            (st2.nodes.length - 1)]) st2.values i lo' hi' b' := by
        intro i lo' hi' b' hlo' hhi' hwf
        have step1 : WF pos st1.nodes st2.values i lo' hi' b' :=
          hwf.ext_values st2.values
            (fun j hj1 hj2 => h2out j (Or.inl (by omega))) (by omega)
        have step2 : WF pos (st1.nodes ++ (ext2 ++ [BvhNode.internal bounds
            (st1.nodes.length - 1) (st2.nodes.length - 1)])) st2.values
            i lo' hi' b' := step1.mono_nodes
        rwa [← List.append_assoc, ← hext2] at step2
      have hliftR : ∀ i lo' hi' b',
          WF pos st2.nodes st2.values i lo' hi' b' →
          WF pos (st2.nodes ++ [BvhNode.internal bounds (st1.nodes.length - 1)
            (st2.nodes.length - 1)]) st2.values i lo' hi' b' := by
        intro i lo' hi' b' hwf
        exact hwf.mono_nodes
      -- the root of the combined subtree
      have hrootget : (st2.nodes ++ [BvhNode.internal bounds (st1.nodes.length - 1)
          (st2.nodes.length - 1)])[st2.nodes.length]? =
          some (.internal bounds (st1.nodes.length - 1) (st2.nodes.length - 1)) := by
        rw [List.getElem?_append_right le_rfl]
        simp
      have hwfL : WF pos (st2.nodes ++ [BvhNode.internal bounds
          (st1.nodes.length - 1) (st2.nodes.length - 1)]) st2.values
          (st1.nodes.length - 1) lo (lo + qq.2) lb :=
        hliftL _ _ _ _ le_rfl le_rfl ok1.root_wf
      have hwfR : WF pos (st2.nodes ++ [BvhNode.internal bounds
          (st1.nodes.length - 1) (st2.nodes.length - 1)]) st2.values
          (st2.nodes.length - 1) (lo + qq.2) hi rb :=
        hliftR _ _ _ _ ok2.root_wf
      have hrootwf : WF pos (st2.nodes ++ [BvhNode.internal bounds
          (st1.nodes.length - 1) (st2.nodes.length - 1)]) st2.values
          st2.nodes.length lo hi bounds :=
        WF.internal _ _ _ _ _ _ _ _ _ hrootget (by omega) (by omega) hwfL hwfR hbeq
      refine ⟨?_, ?_, ?_, ?_, ?_, ?_, ?_, ?_⟩
      · -- value arena length is preserved
        show st2.values.length = st.values.length
        omega
      · -- values outside the range are untouched
        intro j hj
        show st2.values[j]? = st.values[j]?
        rw [h2out j (by omega), h1out j (by omega), hvals1]
        exact getElem?_splice_outside st.values qq.1 j hlohi hhile hq1len hj
      · -- the range is permuted
        show (subslice st2.values lo hi).Perm (subslice st.values lo hi)
        have e1 : subslice st2.values lo (lo + qq.2) =
            subslice st1.values lo (lo + qq.2) :=
          subslice_eq_of_agree (fun j hj1 hj2 => h2out j (Or.inl hj2))
        have e2 : subslice st1.values (lo + qq.2) hi =
            subslice vals1 (lo + qq.2) hi :=
          subslice_eq_of_agree (fun j hj1 hj2 => h1out j (Or.inr hj1))
        have p1 : (subslice st2.values lo (lo + qq.2)).Perm (qq.1.take qq.2) := by
          rw [e1, ← htake]
          exact ok1.vperm
        have p2 : (subslice st2.values (lo + qq.2) hi).Perm (qq.1.drop qq.2) := by
          have := ok2.vperm
          rw [e2, hdrop] at this
          exact this
        rw [subslice_append_subslice st2.values hlosum hsumhi]
        refine List.Perm.trans (p1.append p2) ?_
        rw [List.take_append_drop]
        exact hperm0
      · -- the node arena grows
        show st.nodes.length < (st2.nodes ++ [BvhNode.internal bounds
          (st1.nodes.length - 1) (st2.nodes.length - 1)]).length
        simp only [List.length_append, List.length_cons, List.length_nil]
        omega
      · -- the previous node arena is a prefix
        refine ⟨ext1 ++ ext2 ++ [BvhNode.internal bounds (st1.nodes.length - 1)
          (st2.nodes.length - 1)], ?_⟩
        rw [hext2, hext1]
        simp [List.append_assoc]
      · -- every new internal node references earlier new nodes
        intro j b' l r hj hget
        by_cases hj2 : j < st2.nodes.length
        · rw [List.getElem?_append_left hj2] at hget
          by_cases hj1 : j < st1.nodes.length
          · have hget1 : st1.nodes[j]? = some (.internal b' l r) := by
              rw [hext2] at hget
              rwa [List.getElem?_append_left hj1] at hget
            exact ok1.child_lt j b' l r hj hget1
          · have hch := ok2.child_lt j b' l r (by omega) hget
            exact ⟨by omega, hch.2.1, by omega, hch.2.2.2⟩
        · rw [List.getElem?_append_right (by omega)] at hget
          have hlt := lt_length_of_getElem?_some hget
          simp only [List.length_cons, List.length_nil] at hlt
          have hj3 : j = st2.nodes.length := by omega
          subst hj3
          rw [Nat.sub_self] at hget
          simp only [List.getElem?_cons_zero, Option.some.injEq,
            BvhNode.internal.injEq] at hget
          obtain ⟨hb', hl', hr'⟩ := hget
          refine ⟨by omega, by omega, by omega, by omega⟩
      · -- every new node roots a well-formed subtree within the range
        intro j hj1 hj2
        simp only [List.length_append, List.length_cons, List.length_nil] at hj2
        by_cases hc1 : j < st1.nodes.length
        · obtain ⟨lo2, hi2, b2, hle1, hle2, hwf⟩ := ok1.all_wf j hj1 hc1
          exact ⟨lo2, hi2, b2, hle1, by omega, hliftL j lo2 hi2 b2 hle1 hle2 hwf⟩
        · by_cases hc2 : j < st2.nodes.length
          · obtain ⟨lo2, hi2, b2, hle1, hle2, hwf⟩ := ok2.all_wf j (by omega) hc2
            exact ⟨lo2, hi2, b2, by omega, hle2, hliftR j lo2 hi2 b2 hwf⟩
          · have hj3 : j = st2.nodes.length := by omega
            subst hj3
            exact ⟨lo, hi, bounds, le_rfl, le_rfl, hrootwf⟩
      · -- the last node roots a well-formed subtree over the whole range
        have hfin : (st2.nodes ++ [BvhNode.internal bounds (st1.nodes.length - 1)
            (st2.nodes.length - 1)]).length - 1 = st2.nodes.length := by simp
        show WF pos (st2.nodes ++ [BvhNode.internal bounds (st1.nodes.length - 1)
          (st2.nodes.length - 1)]) st2.values ((st2.nodes ++
          [BvhNode.internal bounds (st1.nodes.length - 1)
            (st2.nodes.length - 1)]).length - 1) lo hi bounds
        rw [hfin]
        exact hrootwf

/-! ### Build-level corollaries -/

theorem build_ok_spec {α : Type} (pos : α → BlockPos) (maxSA : Int)
    (items : List α) (fuel : Nat) (st' : BvhState α) (b : BlockAabb)
    (hvb : value_bounds pos items = some b)
    (h : build pos maxSA items fuel = .ok st') :
    BuildRecOk pos 0 items.length ⟨[], items⟩ st' b := by
  simp only [build, hvb] at h
  exact build_rec_spec pos maxSA fuel b 0 items.length ⟨[], items⟩ st'
    (Nat.zero_le _) le_rfl (by rw [subslice_full]; exact hvb) h

theorem build_values_perm {α : Type} {pos : α → BlockPos} {maxSA : Int}
    {items : List α} {fuel : Nat} {st' : BvhState α} {b : BlockAabb}
    (hvb : value_bounds pos items = some b)
    (h : build pos maxSA items fuel = .ok st') : st'.values.Perm items := by
  have ok := build_ok_spec pos maxSA items fuel st' b hvb h
  have hvlen : st'.values.length = items.length := ok.vlen
  have hp := ok.vperm
  rw [show subslice items 0 items.length = items from subslice_full items] at hp
  rw [show subslice st'.values 0 items.length = st'.values from by
    rw [← hvlen]; exact subslice_full st'.values] at hp
  exact hp

theorem query_after_build {α : Type} {pos : α → BlockPos} {maxSA : Int}
    {items : List α} {fuel : Nat} {st' : BvhState α} {b : BlockAabb}
    (hvb : value_bounds pos items = some b)
    (h : build pos maxSA items fuel = .ok st') (view : BlockAabb) :
    query pos st' view st'.nodes.length =
      some (st'.values.filter (fun v => view.intersects (BlockAabb.point (pos v)))) := by
  have ok := build_ok_spec pos maxSA items fuel st' b hvb h
  have hvlen : st'.values.length = items.length := ok.vlen
  have hngrow : 0 < st'.nodes.length := ok.ngrow
  have hroot : WF pos st'.nodes st'.values (st'.nodes.length - 1) 0 items.length b :=
    ok.root_wf
  have hq := query_rec_correct hroot st'.nodes.length (by omega) view
  simp only [query]
  rw [if_neg (by
    rw [List.isEmpty_iff]
    intro hc
    rw [hc] at hngrow
    simp at hngrow)]
  rw [hq]
  congr 1
  rw [← hvlen, subslice_full st'.values]

/-! ### Claim C1: round-trip coverage -/

/-- C1: for every batch of items and every query region, if `build` completes
normally then `query` invokes the callback exactly once per item whose own
point-box intersects the region: the invocation list is precisely the filter
of the (permuted) value arena by the per-item intersection test, and as a
multiset it equals the brute-force linear filter of the input batch.  No item
outside the region is reported and none inside is missed. -/
theorem claim_roundtrip_coverage {α : Type} (pos : α → BlockPos) (maxSA : Int)
    (items : List α) (fuel : Nat) (st' : BvhState α) (view : BlockAabb)
    (hb : build pos maxSA items fuel = .ok st') :
    st'.values.Perm items ∧
    query pos st' view st'.nodes.length =
      some (st'.values.filter (fun v => view.intersects (BlockAabb.point (pos v)))) ∧
    (st'.values.filter (fun v => view.intersects (BlockAabb.point (pos v)))).Perm
      (items.filter (fun v => view.intersects (BlockAabb.point (pos v)))) := by
  rcases hvb : value_bounds pos items with _ | b
  · have hnil : items = [] := (value_bounds_eq_none_iff pos items).1 hvb
    subst hnil
    simp only [build, hvb] at hb
    injection hb with hb2
    subst hb2
    exact ⟨List.Perm.refl _, by simp [query], List.Perm.refl _⟩
  · have hperm := build_values_perm hvb hb
    exact ⟨hperm, query_after_build hvb hb view, hperm.filter _⟩

theorem claim_roundtrip_coverage_witness :
    build (fun p : BlockPos => p) 1 [⟨0, 0, 0⟩] 1 =
      BuildResult.ok ⟨[BvhNode.leaf ⟨⟨0, 0, 0⟩, ⟨0, 0, 0⟩⟩ 0 1], [⟨0, 0, 0⟩]⟩ ∧
    ((⟨[BvhNode.leaf ⟨⟨0, 0, 0⟩, ⟨0, 0, 0⟩⟩ 0 1], [⟨0, 0, 0⟩]⟩ :
        BvhState BlockPos).values.Perm [⟨0, 0, 0⟩] ∧
      query (fun p : BlockPos => p)
        ⟨[BvhNode.leaf ⟨⟨0, 0, 0⟩, ⟨0, 0, 0⟩⟩ 0 1], [⟨0, 0, 0⟩]⟩
        (BlockAabb.point ⟨0, 0, 0⟩)
        (⟨[BvhNode.leaf ⟨⟨0, 0, 0⟩, ⟨0, 0, 0⟩⟩ 0 1], [⟨0, 0, 0⟩]⟩ :
          BvhState BlockPos).nodes.length =
        some ((⟨[BvhNode.leaf ⟨⟨0, 0, 0⟩, ⟨0, 0, 0⟩⟩ 0 1], [⟨0, 0, 0⟩]⟩ :
          BvhState BlockPos).values.filter
            (fun v => (BlockAabb.point ⟨0, 0, 0⟩).intersects
              (BlockAabb.point ((fun p : BlockPos => p) v)))) ∧
      ((⟨[BvhNode.leaf ⟨⟨0, 0, 0⟩, ⟨0, 0, 0⟩⟩ 0 1], [⟨0, 0, 0⟩]⟩ :
          BvhState BlockPos).values.filter
            (fun v => (BlockAabb.point ⟨0, 0, 0⟩).intersects
              (BlockAabb.point ((fun p : BlockPos => p) v)))).Perm
        ([⟨0, 0, 0⟩].filter
            (fun v => (BlockAabb.point ⟨0, 0, 0⟩).intersects
              (BlockAabb.point ((fun p : BlockPos => p) v))))) :=
  ⟨by decide,
   claim_roundtrip_coverage (fun p : BlockPos => p) 1 [⟨0, 0, 0⟩] 1
     ⟨[BvhNode.leaf ⟨⟨0, 0, 0⟩, ⟨0, 0, 0⟩⟩ 0 1], [⟨0, 0, 0⟩]⟩
     (BlockAabb.point ⟨0, 0, 0⟩) (by decide)⟩

/-! ### Claim C2: bounds invariant -/

/-- C2: after a normally-completing `build` on a non-empty batch, every node
of the arena satisfies the per-node invariant: an internal node's bounds is
the union of its two children's bounds, and a leaf's bounds is the union of
the point-boxes of the items in its value range. -/
theorem claim_bounds_invariant {α : Type} (pos : α → BlockPos) (maxSA : Int)
    (items : List α) (fuel : Nat) (st' : BvhState α)
    (hb : build pos maxSA items fuel = .ok st') (hne : items ≠ []) :
    ∀ i, i < st'.nodes.length → node_ok pos st'.nodes st'.values i = true := by
  rcases hvb : value_bounds pos items with _ | b
  · exact absurd ((value_bounds_eq_none_iff pos items).1 hvb) hne
  intro i hi
  have ok := build_ok_spec pos maxSA items fuel st' b hvb hb
  obtain ⟨lo2, hi2, b2, _, _, hwf⟩ := ok.all_wf i (Nat.zero_le _) hi
  exact wf_node_ok hwf

theorem claim_bounds_invariant_witness :
    build (fun p : BlockPos => p) 1 [⟨0, 0, 0⟩, ⟨10, 0, 0⟩] 5 =
      BuildResult.ok
        ⟨[BvhNode.leaf ⟨⟨10, 0, 0⟩, ⟨10, 0, 0⟩⟩ 0 1,
          BvhNode.leaf ⟨⟨0, 0, 0⟩, ⟨0, 0, 0⟩⟩ 1 2,
          BvhNode.internal ⟨⟨0, 0, 0⟩, ⟨10, 0, 0⟩⟩ 0 1],
         [⟨10, 0, 0⟩, ⟨0, 0, 0⟩]⟩ ∧
    ([(⟨0, 0, 0⟩ : BlockPos), ⟨10, 0, 0⟩] ≠ []) ∧
    node_ok (fun p : BlockPos => p)
      [BvhNode.leaf ⟨⟨10, 0, 0⟩, ⟨10, 0, 0⟩⟩ 0 1,
        BvhNode.leaf ⟨⟨0, 0, 0⟩, ⟨0, 0, 0⟩⟩ 1 2,
        BvhNode.internal ⟨⟨0, 0, 0⟩, ⟨10, 0, 0⟩⟩ 0 1]
      [⟨10, 0, 0⟩, ⟨0, 0, 0⟩] 2 = true :=
  ⟨by decide, by decide,
   claim_bounds_invariant (fun p : BlockPos => p) 1 [⟨0, 0, 0⟩, ⟨10, 0, 0⟩] 5
     ⟨[BvhNode.leaf ⟨⟨10, 0, 0⟩, ⟨10, 0, 0⟩⟩ 0 1,
       BvhNode.leaf ⟨⟨0, 0, 0⟩, ⟨0, 0, 0⟩⟩ 1 2,
       BvhNode.internal ⟨⟨0, 0, 0⟩, ⟨10, 0, 0⟩⟩ 0 1],
      [⟨10, 0, 0⟩, ⟨0, 0, 0⟩]⟩ (by decide) (by decide) 2 (by decide)⟩

/-! ### Claim C5: post-order arena invariant -/

/-- C5: after a normally-completing `build` on a non-empty batch, every
internal node's two child indices are strictly smaller than its own arena
index, and the last element of the arena is the root: it heads a well-formed
subtree covering the whole value arena, with bounds the union over the whole
batch. -/
theorem claim_postorder_arena {α : Type} (pos : α → BlockPos) (maxSA : Int)
    (items : List α) (fuel : Nat) (st' : BvhState α)
    (hb : build pos maxSA items fuel = .ok st') (hne : items ≠ []) :
    (∀ i b l r, st'.nodes[i]? = some (BvhNode.internal b l r) → l < i ∧ r < i) ∧
    ∃ b, value_bounds pos items = some b ∧
      WF pos st'.nodes st'.values (st'.nodes.length - 1) 0 st'.values.length b := by
  rcases hvb : value_bounds pos items with _ | b
  · exact absurd ((value_bounds_eq_none_iff pos items).1 hvb) hne
  have ok := build_ok_spec pos maxSA items fuel st' b hvb hb
  constructor
  · intro i b' l r hget
    have := ok.child_lt i b' l r (Nat.zero_le _) hget
    exact ⟨this.2.1, this.2.2.2⟩
  · refine ⟨b, rfl, ?_⟩
    rw [show st'.values.length = items.length from ok.vlen]
    exact ok.root_wf

theorem claim_postorder_arena_witness :
    build (fun p : BlockPos => p) 1 [⟨0, 0, 0⟩, ⟨10, 0, 0⟩] 5 =
      BuildResult.ok
        ⟨[BvhNode.leaf ⟨⟨10, 0, 0⟩, ⟨10, 0, 0⟩⟩ 0 1,
          BvhNode.leaf ⟨⟨0, 0, 0⟩, ⟨0, 0, 0⟩⟩ 1 2,
          BvhNode.internal ⟨⟨0, 0, 0⟩, ⟨10, 0, 0⟩⟩ 0 1],
         [⟨10, 0, 0⟩, ⟨0, 0, 0⟩]⟩ ∧
    ([(⟨0, 0, 0⟩ : BlockPos), ⟨10, 0, 0⟩] ≠ []) ∧
    (0 < 2 ∧ 1 < 2) :=
  ⟨by decide, by decide,
   (claim_postorder_arena (fun p : BlockPos => p) 1 [⟨0, 0, 0⟩, ⟨10, 0, 0⟩] 5
     ⟨[BvhNode.leaf ⟨⟨10, 0, 0⟩, ⟨10, 0, 0⟩⟩ 0 1,
       BvhNode.leaf ⟨⟨0, 0, 0⟩, ⟨0, 0, 0⟩⟩ 1 2,
       BvhNode.internal ⟨⟨0, 0, 0⟩, ⟨10, 0, 0⟩⟩ 0 1],
      [⟨10, 0, 0⟩, ⟨0, 0, 0⟩]⟩ (by decide) (by decide)).1 2
     ⟨⟨0, 0, 0⟩, ⟨10, 0, 0⟩⟩ 0 1 (by decide)⟩

/-! ### Claim C7: leaf threshold boundary -/

/-- C7: when the union bounding box of a non-empty batch has surface area
exactly equal to the configured threshold, `build` yields a single leaf node
covering the whole value range, with no internal nodes. -/
theorem claim_leaf_threshold {α : Type} (pos : α → BlockPos) (maxSA : Int)
    (items : List α) (fuel : Nat) (b : BlockAabb)
    (hvb : value_bounds pos items = some b)
    (hsa : b.surface_area = maxSA) :
    build pos maxSA items (fuel + 1) =
      .ok ⟨[BvhNode.leaf b 0 items.length], items⟩ := by
  simp only [build, hvb, build_rec]
  rw [if_pos (le_of_eq hsa)]
  rfl

theorem claim_leaf_threshold_witness :
    value_bounds (fun p : BlockPos => p) [⟨0, 0, 0⟩, ⟨1, 0, 0⟩] =
      some ⟨⟨0, 0, 0⟩, ⟨1, 0, 0⟩⟩ ∧
    BlockAabb.surface_area ⟨⟨0, 0, 0⟩, ⟨1, 0, 0⟩⟩ = 2 ∧
    build (fun p : BlockPos => p) 2 [⟨0, 0, 0⟩, ⟨1, 0, 0⟩] 1 =
      .ok ⟨[BvhNode.leaf ⟨⟨0, 0, 0⟩, ⟨1, 0, 0⟩⟩ 0
              [(⟨0, 0, 0⟩ : BlockPos), ⟨1, 0, 0⟩].length],
           [⟨0, 0, 0⟩, ⟨1, 0, 0⟩]⟩ :=
  ⟨by decide, by decide,
   claim_leaf_threshold (fun p : BlockPos => p) 2 [⟨0, 0, 0⟩, ⟨1, 0, 0⟩] 0
     ⟨⟨0, 0, 0⟩, ⟨1, 0, 0⟩⟩ (by decide) (by decide)⟩

/-! ### Claim C9: empty-index no-op -/

/-- C9: `build` on an empty batch leaves both arenas empty; `query` on any
index whose node arena is empty (never built, or built from zero items)
invokes the callback zero times and is not an error; `shrink_to_fit` on any
index is observably a no-op. -/
theorem claim_empty_noop {α : Type} (pos : α → BlockPos) (maxSA : Int)
    (fuel qfuel : Nat) (st : BvhState α) (view : BlockAabb)
    (hempty : st.nodes = []) :
    build pos maxSA ([] : List α) fuel = .ok ⟨[], []⟩ ∧
    query pos st view qfuel = some [] ∧
    shrink_to_fit st = st := by
  refine ⟨?_, ?_, rfl⟩
  · simp [build, value_bounds]
  · simp [query, hempty]

theorem claim_empty_noop_witness :
    (⟨[], [] ⟩ : BvhState BlockPos).nodes = [] ∧
    (build (fun p : BlockPos => p) 1 ([] : List BlockPos) 3 = .ok ⟨[], []⟩ ∧
      query (fun p : BlockPos => p) (⟨[], []⟩ : BvhState BlockPos)
        (BlockAabb.point ⟨0, 0, 0⟩) 2 = some [] ∧
      shrink_to_fit (⟨[], []⟩ : BvhState BlockPos) = ⟨[], []⟩) :=
  ⟨rfl,
   claim_empty_noop (fun p : BlockPos => p) 1 3 2 ⟨[], []⟩
     (BlockAabb.point ⟨0, 0, 0⟩) rfl⟩

/-! ### Claim C8: build can panic on ordinary input -/

/-- C8: with the default threshold of the block instantiation
(`MAX_SURFACE_AREA = 1`), the well-formed two-item batch at positions
`(4,0,0)` and `(5,0,0)` makes the spatial-midpoint partition route every item
to one side (both coordinates are `≥ middle 4 5 = 4`), so the `expect` on the
empty half is reached and `build` panics instead of producing a tree. -/
theorem claim_build_panic_reachable :
    build (fun p : BlockPos => p) 1 [⟨4, 0, 0⟩, ⟨5, 0, 0⟩] 10 =
      BuildResult.panic ∧
    middle 4 5 = 4 ∧
    [(⟨4, 0, 0⟩ : BlockPos), ⟨5, 0, 0⟩].countP
      (split_pred (fun p : BlockPos => p) ⟨⟨4, 0, 0⟩, ⟨5, 0, 0⟩⟩) = 2 := by
  decide

/-! ### Claim C10: the midpoint helper is overflow-safe -/

/-- The truncated average of two ordered integers lies between them. -/
theorem tdiv_two_between {a b : Int} (hab : a ≤ b) :
    a ≤ (a + b).tdiv 2 ∧ (a + b).tdiv 2 ≤ b := by
  rcases le_or_lt 0 (a + b) with hs | hs
  · rw [Int.tdiv_eq_ediv hs (by omega)]
    constructor <;> omega
  · have e := Int.neg_tdiv (a + b) 2
    have e2 : (a + b).tdiv 2 = -((-(a + b)).tdiv 2) := by omega
    rw [e2, Int.tdiv_eq_ediv (by omega) (by omega)]
    constructor <;> omega

/-- C10: for every pair of in-range `i32` coordinates `min ≤ max`, `middle`
computed as in the source (widen to `i64`, average, cast back to `i32`) equals
the exact mathematical average truncated toward zero, the `i64` intermediate
never wraps, and the result lies between `min` and `max` inclusive. -/
theorem claim_middle_overflow_safe (mn mx : Int)
    (h1 : -(2 : Int) ^ 31 ≤ mn) (h2 : mn ≤ mx) (h3 : mx < 2 ^ 31) :
    middle_i32 mn mx = (mn + mx).tdiv 2 ∧
    -(2 : Int) ^ 63 ≤ mn + mx ∧ mn + mx < 2 ^ 63 ∧
    mn ≤ middle_i32 mn mx ∧ middle_i32 mn mx ≤ mx ∧
    middle_i32 mn mx = middle mn mx := by
  obtain ⟨hb1, hb2⟩ := tdiv_two_between h2
  have hid : middle_i32 mn mx = (mn + mx).tdiv 2 := by
    simp only [middle_i32, toI32]
    omega
  refine ⟨hid, by omega, by omega, ?_, ?_, ?_⟩
  · rw [hid]; exact hb1
  · rw [hid]; exact hb2
  · rw [hid]; rfl

theorem claim_middle_overflow_safe_witness :
    (-(2 : Int) ^ 31 ≤ -2147483648 ∧ (-2147483648 : Int) ≤ 2147483647 ∧
      (2147483647 : Int) < 2 ^ 31) ∧
    (middle_i32 (-2147483648) 2147483647 = ((-2147483648 : Int) + 2147483647).tdiv 2 ∧
      -(2 : Int) ^ 63 ≤ -2147483648 + 2147483647 ∧
      (-2147483648 : Int) + 2147483647 < 2 ^ 63 ∧
      (-2147483648 : Int) ≤ middle_i32 (-2147483648) 2147483647 ∧
      middle_i32 (-2147483648) 2147483647 ≤ 2147483647 ∧
      middle_i32 (-2147483648) 2147483647 = middle (-2147483648) 2147483647) :=
  ⟨⟨by norm_num, by norm_num, by norm_num⟩,
   claim_middle_overflow_safe (-2147483648) 2147483647
     (by norm_num) (by norm_num) (by norm_num)⟩

/-! ### Claim C6: the split axis has the largest side length -/

/-- The partition predicate tests exactly the chosen axis: the coordinate of
the item along `choose_axis` against the midpoint of the bounds along it. -/
theorem split_pred_eq {α : Type} (pos : α → BlockPos) (b : BlockAabb) (v : α) :
    split_pred pos b v =
      decide (axis_coord (pos v) (choose_axis b) ≥ axis_middle b (choose_axis b)) := by
  simp only [split_pred, choose_axis]
  split_ifs <;> rfl

/-- C6: whenever the builder splits a node, the axis whose midpoint is
computed and whose coordinate the partition predicate tests is an axis along
which the bounds has the largest side length (ties broken by the fixed
precedence X, then Z, then Y). -/
theorem claim_split_axis_longest (b : BlockAabb) :
    axis_length b (choose_axis b) =
      Max.max (axis_length b Axis.x)
        (Max.max (axis_length b Axis.y) (axis_length b Axis.z)) ∧
    (b.length_x ≥ b.length_y ∧ b.length_x ≥ b.length_z → choose_axis b = Axis.x) ∧
    (¬(b.length_x ≥ b.length_y ∧ b.length_x ≥ b.length_z) → b.length_z ≥ b.length_y →
      choose_axis b = Axis.z) ∧
    (¬(b.length_x ≥ b.length_y ∧ b.length_x ≥ b.length_z) → ¬(b.length_z ≥ b.length_y) →
      choose_axis b = Axis.y) ∧
    (∀ {α : Type} (pos : α → BlockPos) (v : α),
      split_pred pos b v =
        decide (axis_coord (pos v) (choose_axis b) ≥ axis_middle b (choose_axis b))) := by
  refine ⟨?_, ?_, ?_, ?_, fun pos v => split_pred_eq pos b v⟩
  · simp only [choose_axis]
    split_ifs with hx hz <;> simp only [axis_length] <;> omega
  · intro h
    simp only [choose_axis, if_pos h]
  · intro h1 h2
    simp only [choose_axis, if_neg h1, if_pos h2]
  · intro h1 h2
    simp only [choose_axis, if_neg h1, if_neg h2]

theorem claim_split_axis_longest_witness :
    (BlockAabb.length_x ⟨⟨0, 0, 0⟩, ⟨5, 3, 1⟩⟩ ≥ BlockAabb.length_y ⟨⟨0, 0, 0⟩, ⟨5, 3, 1⟩⟩ ∧
      BlockAabb.length_x ⟨⟨0, 0, 0⟩, ⟨5, 3, 1⟩⟩ ≥ BlockAabb.length_z ⟨⟨0, 0, 0⟩, ⟨5, 3, 1⟩⟩) ∧
    choose_axis ⟨⟨0, 0, 0⟩, ⟨5, 3, 1⟩⟩ = Axis.x :=
  ⟨by decide, (claim_split_axis_longest ⟨⟨0, 0, 0⟩, ⟨5, 3, 1⟩⟩).2.1 (by decide)⟩

/-! ### Claim C4: partition step layout (corrected) -/

/-- Counterexample to C4 as stated: for the batch at `x`-coordinates
`[0, 10, 10]` (bounds `0..10` on the X axis, midpoint `5`), the builder's
partition returns the point `2` and keeps the two items with coordinate
`≥ 5` at the FRONT, not the items with coordinate `< 5`: the front group is
not the "coordinate < midpoint" group the claim describes, and the partition
point does not equal the number of "coordinate < midpoint" items. -/
theorem claim_partition_layout_counterexample :
    (partition [(⟨0, 0, 0⟩ : BlockPos), ⟨10, 0, 0⟩, ⟨10, 0, 0⟩]
        (split_pred (fun p : BlockPos => p) ⟨⟨0, 0, 0⟩, ⟨10, 0, 0⟩⟩)).1 =
      [⟨10, 0, 0⟩, ⟨10, 0, 0⟩, ⟨0, 0, 0⟩] ∧
    (partition [(⟨0, 0, 0⟩ : BlockPos), ⟨10, 0, 0⟩, ⟨10, 0, 0⟩]
        (split_pred (fun p : BlockPos => p) ⟨⟨0, 0, 0⟩, ⟨10, 0, 0⟩⟩)).2 = 2 ∧
    axis_middle ⟨⟨0, 0, 0⟩, ⟨10, 0, 0⟩⟩ (choose_axis ⟨⟨0, 0, 0⟩, ⟨10, 0, 0⟩⟩) = 5 ∧
    ¬ (((partition [(⟨0, 0, 0⟩ : BlockPos), ⟨10, 0, 0⟩, ⟨10, 0, 0⟩]
          (split_pred (fun p : BlockPos => p) ⟨⟨0, 0, 0⟩, ⟨10, 0, 0⟩⟩)).1.take
        (partition [(⟨0, 0, 0⟩ : BlockPos), ⟨10, 0, 0⟩, ⟨10, 0, 0⟩]
          (split_pred (fun p : BlockPos => p) ⟨⟨0, 0, 0⟩, ⟨10, 0, 0⟩⟩)).2).all
          (fun v => decide (v.x < 5)) = true) ∧
    ¬ ((partition [(⟨0, 0, 0⟩ : BlockPos), ⟨10, 0, 0⟩, ⟨10, 0, 0⟩]
          (split_pred (fun p : BlockPos => p) ⟨⟨0, 0, 0⟩, ⟨10, 0, 0⟩⟩)).2 =
        [(⟨0, 0, 0⟩ : BlockPos), ⟨10, 0, 0⟩, ⟨10, 0, 0⟩].countP
          (fun v => decide (v.x < 5))) := by
  decide

/-- C4 amended: the builder partitions the sub-slice in place into items
whose split-axis coordinate is `≥` the midpoint kept at the FRONT and items
whose coordinate is `<` the midpoint kept at the BACK, with the partition
point `p` equal to the size of the front (`≥ midpoint`) group; the slice's
multiset of items is preserved (the result is a permutation). -/
theorem claim_partition_layout_amended {α : Type} (pos : α → BlockPos)
    (b : BlockAabb) (s : List α) :
    (partition s (split_pred pos b)).1.Perm s ∧
    (partition s (split_pred pos b)).2 = s.countP (split_pred pos b) ∧
    (∀ v ∈ (partition s (split_pred pos b)).1.take (partition s (split_pred pos b)).2,
      axis_coord (pos v) (choose_axis b) ≥ axis_middle b (choose_axis b)) ∧
    (∀ v ∈ (partition s (split_pred pos b)).1.drop (partition s (split_pred pos b)).2,
      axis_coord (pos v) (choose_axis b) < axis_middle b (choose_axis b)) := by
  refine ⟨partition_perm s _, partition_count s _, ?_, ?_⟩
  · intro v hv
    have := partition_front s (split_pred pos b) v hv
    rw [split_pred_eq] at this
    exact of_decide_eq_true this
  · intro v hv
    have := partition_back s (split_pred pos b) v hv
    rw [split_pred_eq] at this
    have h2 := of_decide_eq_false this
    omega

theorem claim_partition_layout_amended_witness :
    (⟨10, 0, 0⟩ : BlockPos) ∈
      ((partition [(⟨0, 0, 0⟩ : BlockPos), ⟨10, 0, 0⟩]
        (split_pred (fun p : BlockPos => p) ⟨⟨0, 0, 0⟩, ⟨10, 0, 0⟩⟩)).1.take
        (partition [(⟨0, 0, 0⟩ : BlockPos), ⟨10, 0, 0⟩]
          (split_pred (fun p : BlockPos => p) ⟨⟨0, 0, 0⟩, ⟨10, 0, 0⟩⟩)).2) ∧
    axis_coord ((fun p : BlockPos => p) (⟨10, 0, 0⟩ : BlockPos))
        (choose_axis ⟨⟨0, 0, 0⟩, ⟨10, 0, 0⟩⟩) ≥
      axis_middle ⟨⟨0, 0, 0⟩, ⟨10, 0, 0⟩⟩ (choose_axis ⟨⟨0, 0, 0⟩, ⟨10, 0, 0⟩⟩) :=
  ⟨by decide,
   (claim_partition_layout_amended (fun p : BlockPos => p) ⟨⟨0, 0, 0⟩, ⟨10, 0, 0⟩⟩
     [(⟨0, 0, 0⟩ : BlockPos), ⟨10, 0, 0⟩]).2.2.1 ⟨10, 0, 0⟩ (by decide)⟩

/-! ### Claim C3: degenerate partitions and termination -/

theorem aabb_union_le {a b c : BlockAabb} (h1 : aabb_le a c) (h2 : aabb_le b c) :
    aabb_le (a.union b) c := by
  simp only [aabb_le, BlockAabb.union] at *
  omega

theorem foldl_union_le_of_all {c b0 : BlockAabb} (l : List BlockAabb)
    (h0 : aabb_le b0 c) (h : ∀ d ∈ l, aabb_le d c) :
    aabb_le (l.foldl BlockAabb.union b0) c := by
  induction l generalizing b0 with
  | nil => exact h0
  | cons x l ih =>
    exact ih (aabb_union_le h0 (h x (List.mem_cons_self x l)))
      (fun d hd => h d (List.mem_cons_of_mem x hd))

/-- The bounds `value_bounds` computes for a list of values all of whose point-boxes lie inside
`c` lies inside `c`. -/
theorem value_bounds_le_of_all {α : Type} (pos : α → BlockPos) {l : List α}
    {b c : BlockAabb} (hvb : value_bounds pos l = some b)
    (h : ∀ v ∈ l, aabb_le (BlockAabb.point (pos v)) c) : aabb_le b c := by
  match l with
  | [] => cases hvb
  | w :: ws =>
    simp only [value_bounds, List.map_cons, Option.some.injEq] at hvb
    subst hvb
    refine foldl_union_le_of_all _ (h w (List.mem_cons_self w ws)) ?_
    intro d hd
    rcases List.mem_map.1 hd with ⟨v, hv, rfl⟩
    exact h v (List.mem_cons_of_mem w hv)

/-- If a contained box is strictly shorter than its container along one axis
(and no longer along the others, which containment gives), its surface area is
smaller by at least 2. -/
theorem surface_area_decrease {lb bounds : BlockAabb} (ax : Axis)
    (hcont : aabb_le lb bounds)
    (hax : axis_length lb ax ≤ axis_length bounds ax - 1) :
    lb.surface_area ≤ bounds.surface_area - 2 := by
  obtain ⟨c1, c2, c3, c4, c5, c6⟩ := hcont
  cases ax <;>
    simp only [axis_length, BlockAabb.surface_area, BlockAabb.length_x,
      BlockAabb.length_y, BlockAabb.length_z] at hax ⊢ <;>
    omega

theorem axis_middle_eq (b : BlockAabb) (ax : Axis) :
    axis_middle b ax = middle (axis_min b ax) (axis_max b ax) := by
  cases ax <;> rfl

/-- The surface area of a box returned by `value_bounds` is non-negative. -/
theorem value_bounds_sa_nonneg {α : Type} (pos : α → BlockPos) {l : List α}
    {b : BlockAabb} (hvb : value_bounds pos l = some b) : 0 ≤ b.surface_area := by
  obtain ⟨h1, h2, h3⟩ := value_bounds_wf pos hvb
  simp only [BlockAabb.surface_area, BlockAabb.length_x, BlockAabb.length_y,
    BlockAabb.length_z]
  omega

/-- When the spatial-midpoint partition routes every item of the range to the
same side (the degenerate case), `build_rec` panics at the `expect` on the
empty half. -/
theorem build_rec_degenerate_panics {α : Type} (pos : α → BlockPos) (maxSA : Int)
    (fuel : Nat) (bounds : BlockAabb) (lo hi : Nat) (st : BvhState α)
    (hlohi : lo ≤ hi) (hhile : hi ≤ st.values.length)
    (hvb : value_bounds pos (subslice st.values lo hi) = some bounds)
    (hsa : ¬ bounds.surface_area ≤ maxSA)
    (hdeg : (subslice st.values lo hi).countP (split_pred pos bounds) = 0 ∨
      (subslice st.values lo hi).countP (split_pred pos bounds) = hi - lo) :
    build_rec pos maxSA (fuel + 1) bounds lo hi st = .panic := by
  simp only [build_rec]
  rw [if_neg hsa]
  set s0 := subslice st.values lo hi with hs0
  set pr := split_pred pos bounds with hpr
  set qq := partition s0 pr with hqq
  set vals1 := splice st.values lo hi qq.1 with hvals1
  have hs0len : s0.length = hi - lo := by
    rw [hs0]; exact length_subslice st.values hlohi hhile
  have hq1len : qq.1.length = hi - lo := by
    rw [hqq, partition_length s0 pr, hs0len]
  have hcount : qq.2 = s0.countP pr := by rw [hqq]; exact partition_count s0 pr
  have hple : qq.2 ≤ hi - lo := by
    have := partition_point_le s0 pr
    rw [← hqq] at this
    omega
  have hv1len : vals1.length = st.values.length := by
    rw [hvals1]; exact length_splice st.values qq.1 hlohi hhile hq1len
  have hsub1 : subslice vals1 lo hi = qq.1 := by
    rw [hvals1]; exact subslice_splice st.values qq.1 hlohi hhile hq1len
  have hlosum : lo ≤ lo + qq.2 := Nat.le_add_right _ _
  have hsumhi : lo + qq.2 ≤ hi := by omega
  have hsplitA : subslice vals1 lo (lo + qq.2) ++
      subslice vals1 (lo + qq.2) hi = qq.1 := by
    rw [← subslice_append_subslice vals1 hlosum hsumhi, hsub1]
  have hAlen : (subslice vals1 lo (lo + qq.2)).length = qq.2 := by
    rw [length_subslice vals1 hlosum (by omega)]
    omega
  have htake : subslice vals1 lo (lo + qq.2) = qq.1.take qq.2 := by
    have := (eq_take_drop_of_append_eq hsplitA).1
    rwa [hAlen] at this
  have hdrop : subslice vals1 (lo + qq.2) hi = qq.1.drop qq.2 := by
    have := (eq_take_drop_of_append_eq hsplitA).2
    rwa [hAlen] at this
  rcases hdeg with hdeg | hdeg
  · -- all items on the `< midpoint` side: the left half is empty
    have hnone : value_bounds pos (subslice vals1 lo (lo + qq.2)) = none := by
      rw [htake, hcount, hdeg]
      simp [value_bounds]
    rw [hnone]
  · -- all items on the `≥ midpoint` side: the right half is empty
    have hnone : value_bounds pos (subslice vals1 (lo + qq.2) hi) = none := by
      rw [hdrop, hcount, hdeg]
      rw [List.drop_of_length_le (by omega)]
      rfl
    rw [hnone]
    rcases hL : value_bounds pos (subslice vals1 lo (lo + qq.2)) with _ | lb <;> rfl

/-- The recursion of `build_rec` never runs out of fuel once the fuel exceeds the surface area
of the call's bounds: every level of recursion shrinks the surface area of
both halves by at least 2 (or stops at a leaf or a panic). -/
theorem build_rec_no_fuelOut {α : Type} (pos : α → BlockPos) (maxSA : Int) :
    ∀ (fuel : Nat) (bounds : BlockAabb) (lo hi : Nat) (st : BvhState α),
      lo ≤ hi → hi ≤ st.values.length →
      value_bounds pos (subslice st.values lo hi) = some bounds →
      bounds.surface_area.toNat < fuel →
      build_rec pos maxSA fuel bounds lo hi st ≠ .fuelOut := by
  intro fuel
  induction fuel with
  | zero =>
    intro bounds lo hi st _ _ _ hf
    omega
  | succ fuel ih =>
    intro bounds lo hi st hlohi hhile hvb hf
    simp only [build_rec]
    by_cases hsa : bounds.surface_area ≤ maxSA
    · rw [if_pos hsa]
      simp
    · rw [if_neg hsa]
      set s0 := subslice st.values lo hi with hs0
      set pr := split_pred pos bounds with hpr
      set qq := partition s0 pr with hqq
      set vals1 := splice st.values lo hi qq.1 with hvals1
      have hperm0 : qq.1.Perm s0 := by rw [hqq]; exact partition_perm s0 pr
      have hs0len : s0.length = hi - lo := by
        rw [hs0]; exact length_subslice st.values hlohi hhile
      have hq1len : qq.1.length = hi - lo := by
        rw [hqq, partition_length s0 pr, hs0len]
      have hple : qq.2 ≤ hi - lo := by
        have := partition_point_le s0 pr
        rw [← hqq] at this
        omega
      have hv1len : vals1.length = st.values.length := by
        rw [hvals1]; exact length_splice st.values qq.1 hlohi hhile hq1len
      have hsub1 : subslice vals1 lo hi = qq.1 := by
        rw [hvals1]; exact subslice_splice st.values qq.1 hlohi hhile hq1len
      have hlosum : lo ≤ lo + qq.2 := Nat.le_add_right _ _
      have hsumhi : lo + qq.2 ≤ hi := by omega
      have hsplitA : subslice vals1 lo (lo + qq.2) ++
          subslice vals1 (lo + qq.2) hi = qq.1 := by
        rw [← subslice_append_subslice vals1 hlosum hsumhi, hsub1]
      have hAlen : (subslice vals1 lo (lo + qq.2)).length = qq.2 := by
        rw [length_subslice vals1 hlosum (by omega)]
        omega
      have htake : subslice vals1 lo (lo + qq.2) = qq.1.take qq.2 := by
        have := (eq_take_drop_of_append_eq hsplitA).1
        rwa [hAlen] at this
      have hdrop : subslice vals1 (lo + qq.2) hi = qq.1.drop qq.2 := by
        have := (eq_take_drop_of_append_eq hsplitA).2
        rwa [hAlen] at this
      rcases hL : value_bounds pos (subslice vals1 lo (lo + qq.2)) with _ | lb
      · rcases hR : value_bounds pos (subslice vals1 (lo + qq.2) hi) with _ | rb <;>
          simp
      rcases hR : value_bounds pos (subslice vals1 (lo + qq.2) hi) with _ | rb
      · simp
      dsimp only
      -- the surface area of both halves is at least 2 smaller
      have hLt : value_bounds pos (qq.1.take qq.2) = some lb := by rw [← htake]; exact hL
      have hRd : value_bounds pos (qq.1.drop qq.2) = some rb := by rw [← hdrop]; exact hR
      have hmemb : ∀ v ∈ qq.1, aabb_le (BlockAabb.point (pos v)) bounds := by
        intro v hv
        exact value_bounds_le pos hvb (hperm0.mem_iff.1 hv)
      have hlecont : aabb_le lb bounds :=
        value_bounds_le_of_all pos hLt
          (fun v hv => hmemb v (List.mem_of_mem_take hv))
      have hrecont : aabb_le rb bounds :=
        value_bounds_le_of_all pos hRd
          (fun v hv => hmemb v (List.mem_of_mem_drop hv))
      have hfront : ∀ v ∈ qq.1.take qq.2,
          axis_coord (pos v) (choose_axis bounds) ≥
            axis_middle bounds (choose_axis bounds) := by
        intro v hv
        have h2 : pr v = true := by rw [hqq] at hv; exact partition_front s0 pr v hv
        rw [hpr, split_pred_eq] at h2
        exact of_decide_eq_true h2
      have hback : ∀ v ∈ qq.1.drop qq.2,
          axis_coord (pos v) (choose_axis bounds) <
            axis_middle bounds (choose_axis bounds) := by
        intro v hv
        have h2 : pr v = false := by rw [hqq] at hv; exact partition_back s0 pr v hv
        rw [hpr, split_pred_eq] at h2
        have := of_decide_eq_false h2
        omega
      have hwfb : aabb_wf bounds := value_bounds_wf pos hvb
      have hminmax : axis_min bounds (choose_axis bounds) ≤
          axis_max bounds (choose_axis bounds) := aabb_wf_axis hwfb _
      have hmid0 := tdiv_two_between hminmax
      have hmid : axis_min bounds (choose_axis bounds) ≤
          axis_middle bounds (choose_axis bounds) ∧
          axis_middle bounds (choose_axis bounds) ≤
            axis_max bounds (choose_axis bounds) := by
        rw [axis_middle_eq]
        exact hmid0
      -- the right half is non-empty, so some coordinate is < mid, so min < mid
      have hdropne : qq.1.drop qq.2 ≠ [] := by
        intro hc
        rw [hc] at hRd
        cases hRd
      obtain ⟨w, hw⟩ := List.exists_mem_of_ne_nil _ hdropne
      have hminlt : axis_min bounds (choose_axis bounds) <
          axis_middle bounds (choose_axis bounds) := by
        have h2 := (aabb_le_axis (hmemb w (List.mem_of_mem_drop hw)) (choose_axis bounds)).1
        rw [axis_min_point] at h2
        have h3 := hback w hw
        omega
      -- left child loses at least 1 on the split axis
      have hlb_min : axis_middle bounds (choose_axis bounds) ≤
          axis_min lb (choose_axis bounds) :=
        value_bounds_axis_min_ge pos hLt hfront
      have hlb_max : axis_max lb (choose_axis bounds) ≤
          axis_max bounds (choose_axis bounds) :=
        (aabb_le_axis hlecont _).2
      have hlb_len : axis_length lb (choose_axis bounds) ≤
          axis_length bounds (choose_axis bounds) - 1 := by
        rw [axis_length_eq, axis_length_eq]
        omega
      -- right child loses at least 1 on the split axis
      have hrb_max : axis_max rb (choose_axis bounds) ≤
          axis_middle bounds (choose_axis bounds) - 1 :=
        value_bounds_axis_max_le pos hRd (fun v hv => by have := hback v hv; omega)
      have hrb_min : axis_min bounds (choose_axis bounds) ≤
          axis_min rb (choose_axis bounds) :=
        (aabb_le_axis hrecont _).1
      have hrb_len : axis_length rb (choose_axis bounds) ≤
          axis_length bounds (choose_axis bounds) - 1 := by
        rw [axis_length_eq, axis_length_eq]
        omega
      have hlb_sa : lb.surface_area ≤ bounds.surface_area - 2 :=
        surface_area_decrease _ hlecont hlb_len
      have hrb_sa : rb.surface_area ≤ bounds.surface_area - 2 :=
        surface_area_decrease _ hrecont hrb_len
      have hlb_nonneg : 0 ≤ lb.surface_area := value_bounds_sa_nonneg pos hLt
      have hrb_nonneg : 0 ≤ rb.surface_area := value_bounds_sa_nonneg pos hRd
      -- the left recursive call cannot run out of fuel
      have hleft := ih lb lo (lo + qq.2) ⟨st.nodes, vals1⟩ hlosum
        (show lo + qq.2 ≤ vals1.length from by omega) hL (by omega)
      rcases hB1 : build_rec pos maxSA fuel lb lo (lo + qq.2) ⟨st.nodes, vals1⟩
        with st1 | _ | _
      rotate_left
      · simp
      · exact absurd hB1 hleft
      dsimp only
      -- after the left build, the right slice is unchanged
      have ok1 : BuildRecOk pos lo (lo + qq.2) ⟨st.nodes, vals1⟩ st1 lb :=
        build_rec_spec pos maxSA fuel lb lo (lo + qq.2) ⟨st.nodes, vals1⟩ st1 hlosum
          (show lo + qq.2 ≤ vals1.length from by omega) hL hB1
      have h1vlen : st1.values.length = vals1.length := ok1.vlen
      have h1out : ∀ j, j < lo ∨ lo + qq.2 ≤ j → st1.values[j]? = vals1[j]? :=
        ok1.voutside
      have hvbR : value_bounds pos (subslice st1.values (lo + qq.2) hi) = some rb := by
        rw [subslice_eq_of_agree (fun j hj1 hj2 => h1out j (Or.inr hj1))]
        exact hR
      have hright := ih rb (lo + qq.2) hi st1 hsumhi (by omega) hvbR (by omega)
      rcases hB2 : build_rec pos maxSA fuel rb (lo + qq.2) hi st1 with st2 | _ | _
      · simp
      · simp
      · exact absurd hB2 hright

/-- Counterexample to C3 as stated: on the degenerate two-item batch at
`(4,0,0)` and `(5,0,0)` with threshold 1, every item is routed to one side,
and the builder does NOT recurse forever (it is not still recursing when
given 7 levels of fuel): it terminates immediately with a panic. -/
theorem claim_degenerate_counterexample :
    build (fun p : BlockPos => p) 1 [⟨4, 0, 0⟩, ⟨5, 0, 0⟩] 7 =
      BuildResult.panic ∧
    build (fun p : BlockPos => p) 1 [⟨4, 0, 0⟩, ⟨5, 0, 0⟩] 7 ≠
      BuildResult.fuelOut := by
  decide

/-- C3 amended: when every item in a node's range satisfies the midpoint
predicate the same way (all routed to one side, leaving the other half
empty), the builder PANICS at the `expect` on the empty half instead of
recursing; apart from that, and including it, build and query always
terminate on well-formed input: `build` never exhausts any fuel bound beyond
the root box's surface area (it returns a tree or panics), and `query` after
a normally-completed build always returns. -/
theorem claim_degenerate_behavior :
    (∀ {α : Type} (pos : α → BlockPos) (maxSA : Int) (fuel : Nat)
      (bounds : BlockAabb) (lo hi : Nat) (st : BvhState α),
      lo ≤ hi → hi ≤ st.values.length →
      value_bounds pos (subslice st.values lo hi) = some bounds →
      ¬ bounds.surface_area ≤ maxSA →
      ((subslice st.values lo hi).countP (split_pred pos bounds) = 0 ∨
        (subslice st.values lo hi).countP (split_pred pos bounds) = hi - lo) →
      build_rec pos maxSA (fuel + 1) bounds lo hi st = .panic) ∧
    (∀ {α : Type} (pos : α → BlockPos) (maxSA : Int) (items : List α),
      ∃ fuel, ∀ fuel2, fuel ≤ fuel2 →
        build pos maxSA items fuel2 ≠ .fuelOut) ∧
    (∀ {α : Type} (pos : α → BlockPos) (maxSA : Int) (items : List α)
      (fuel : Nat) (st' : BvhState α) (view : BlockAabb),
      build pos maxSA items fuel = .ok st' →
      query pos st' view st'.nodes.length ≠ none) := by
  refine ⟨?_, ?_, ?_⟩
  · intro α pos maxSA fuel bounds lo hi st h1 h2 h3 h4 h5
    exact build_rec_degenerate_panics pos maxSA fuel bounds lo hi st h1 h2 h3 h4 h5
  · intro α pos maxSA items
    rcases hvb : value_bounds pos items with _ | b
    · refine ⟨0, fun fuel2 _ => ?_⟩
      simp [build, hvb]
    · refine ⟨b.surface_area.toNat + 1, fun fuel2 hge => ?_⟩
      simp only [build, hvb]
      exact build_rec_no_fuelOut pos maxSA fuel2 b 0 items.length ⟨[], items⟩
        (Nat.zero_le _) le_rfl (by rw [subslice_full]; exact hvb) (by omega)
  · intro α pos maxSA items fuel st' view hb
    rcases hvb : value_bounds pos items with _ | b
    · have hnil : items = [] := (value_bounds_eq_none_iff pos items).1 hvb
      subst hnil
      simp only [build, hvb] at hb
      injection hb with hb2
      subst hb2
      simp [query]
    · rw [query_after_build hvb hb view]
      simp

theorem claim_degenerate_behavior_witness :
    ((0 : Nat) ≤ 2 ∧
      2 ≤ [(⟨4, 0, 0⟩ : BlockPos), ⟨5, 0, 0⟩].length ∧
      value_bounds (fun p : BlockPos => p)
        (subslice [(⟨4, 0, 0⟩ : BlockPos), ⟨5, 0, 0⟩] 0 2) =
        some ⟨⟨4, 0, 0⟩, ⟨5, 0, 0⟩⟩ ∧
      ¬ BlockAabb.surface_area ⟨⟨4, 0, 0⟩, ⟨5, 0, 0⟩⟩ ≤ 1 ∧
      (subslice [(⟨4, 0, 0⟩ : BlockPos), ⟨5, 0, 0⟩] 0 2).countP
        (split_pred (fun p : BlockPos => p) ⟨⟨4, 0, 0⟩, ⟨5, 0, 0⟩⟩) = 2 - 0) ∧
    build_rec (fun p : BlockPos => p) 1 (0 + 1) ⟨⟨4, 0, 0⟩, ⟨5, 0, 0⟩⟩ 0 2
      ⟨[], [⟨4, 0, 0⟩, ⟨5, 0, 0⟩]⟩ = BuildResult.panic :=
  ⟨⟨by decide, by decide, by decide, by decide, by decide⟩,
   claim_degenerate_behavior.1 (fun p : BlockPos => p) 1 0
     ⟨⟨4, 0, 0⟩, ⟨5, 0, 0⟩⟩ 0 2 ⟨[], [⟨4, 0, 0⟩, ⟨5, 0, 0⟩]⟩
     (by decide) (by decide) (by decide) (by decide) (Or.inr (by decide))⟩
